import Mathlib

/-!
Verification development for the treeball repository: a shallow embedding of
the path normaliser, exclude matcher, archive-entry writer, walker stream,
diff orchestration and error-merging logic, together with theorems settling
the specification claims.

Conventions. The program is embedded for a forward-slash platform (the
separator is the slash). String primitives of the source language (suffix
and trailing tests, trimming, splitting, byte comparison) are embedded as
character-list computations on the underlying data, which coincides with Go
byte-wise behaviour because UTF-8 byte order agrees with codepoint order.
Machine integers do not overflow in any modelled computation, so Nat is used
throughout. Channel-based code is embedded as functions on the finite
sequences the channels would carry. Bounded-depth recursions are written
with an explicit fuel argument that provably exceeds the recursion depth.
-/

deriving instance DecidableEq for Except

namespace Treeball

/-- The platform path separator assumed by the embedding. -/
def pathSep : Char := '/'

/-- Embedding of Go filepath.ToSlash: replace every separator by a slash. -/
def toSlash (s : String) : String :=
  ⟨s.data.map (fun c => if c = pathSep then '/' else c)⟩

/-- Embedding of strings.HasSuffix on the character data. -/
def strEndsWith (s suf : String) : Bool :=
  List.isSuffixOf suf.data s.data

/-- Embedding of strings.HasPrefix on the character data. -/
def strStartsWith (s pre : String) : Bool :=
  List.isPrefixOf pre.data s.data

/-- Embedding of strings.TrimSpace on the character data. -/
def strTrim (s : String) : String :=
  ⟨((s.data.dropWhile Char.isWhitespace).reverse.dropWhile Char.isWhitespace).reverse⟩

/-- Splitting a character list at a separator character, with the semantics
of string splitting: the empty text yields one empty part. -/
def splitOnChar (sep : Char) : List Char → List (List Char)
  | [] => [[]]
  | c :: cs =>
    let r := splitOnChar sep cs
    if c = sep then [] :: r
    else
      match r with
      | h :: t => (c :: h) :: t
      | [] => [[c]]

/-- String-level splitting at a separator character. -/
def splitStr (sep : Char) (s : String) : List String :=
  (splitOnChar sep s.data).map (fun l => ⟨l⟩)

/-- Byte-lexicographic strict comparison of character data; UTF-8 byte order
coincides with codepoint order, so this models Go byte comparison. -/
def charsLt : List Char → List Char → Bool
  | [], [] => false
  | [], _ :: _ => true
  | _ :: _, [] => false
  | a :: ra, b :: rb => if a = b then charsLt ra rb else decide (a < b)

/-- One step of Go lexical path cleaning: fold a single path component onto
the (reversed) stack of already-cleaned components. -/
def cleanFold (rooted : Bool) (acc : List String) (c : String) : List String :=
  if c = "" ∨ c = "." then acc
  else if c = ".." then
    match acc with
    | top :: rest => if top = ".." then c :: acc else rest
    | [] => if rooted then [] else [".."]
  else c :: acc

/-- Embedding of Go filepath.Clean for the slash separator: collapse repeated
slashes, drop dot components, resolve dot-dot against preceding components,
keep a dot-dot that escapes a relative path, and normalise the empty result. -/
def cleanPath (s : String) : String :=
  if s = "" then "."
  else
    let rooted := strStartsWith s "/"
    let stack := (splitStr '/' s).foldl (cleanFold rooted) []
    let body := String.intercalate "/" stack.reverse
    if rooted then (if body = "" then "/" else "/" ++ body)
    else (if body = "" then "." else body)

/-- Embedding of strings.TrimSuffix with a slash: drop one trailing slash. -/
def dropOneTrailSlash (s : String) : String :=
  if strEndsWith s "/" then ⟨s.data.dropLast⟩ else s

/-- Embedding of strings.TrimPrefix with a slash: drop one leading slash. -/
def dropOneLeadSlash (s : String) : String :=
  if strStartsWith s "/" then ⟨s.data.drop 1⟩ else s

/-- The opening curly-brace character of brace alternation patterns. -/
def obr : Char := Char.ofNat 123

/-- The closing curly-brace character of brace alternation patterns. -/
def cbr : Char := Char.ofNat 125

/-- Modelled from the spec: scanning the body of a brace group of a
doublestar pattern (the pattern library is external to the repository).
Splits the body at top-level commas, tracking nesting depth and escapes, and
returns the alternatives together with the text after the matching closing
brace; `none` on an unclosed group. The fuel bounds the scan and is always
supplied larger than the text length. -/
def braceBody : Nat → List Char → Nat → List Char → List (List Char) →
    Option (List (List Char) × List Char)
  | 0, _, _, _, _ => none
  | _ + 1, [], _, _, _ => none
  | fuel + 1, c :: cs, depth, cur, alts =>
    if c = '\\' then
      match cs with
      | [] => none
      | d :: ds => braceBody fuel ds depth (d :: '\\' :: cur) alts
    else if c = obr then braceBody fuel cs (depth + 1) (c :: cur) alts
    else if c = cbr then
      if depth = 0 then some ((cur.reverse :: alts).reverse, cs)
      else braceBody fuel cs (depth - 1) (c :: cur) alts
    else if c = ',' ∧ depth = 0 then braceBody fuel cs depth [] (cur.reverse :: alts)
    else braceBody fuel cs depth (c :: cur) alts

/-- Modelled from the spec: locating the first unescaped opening brace of a
doublestar pattern; returns the text before it and the text after it. -/
def findBrace : List Char → Option (List Char × List Char)
  | [] => none
  | c :: cs =>
    if c = '\\' then
      match cs with
      | [] => none
      | d :: ds =>
        match findBrace ds with
        | some (pre, rest) => some (c :: d :: pre, rest)
        | none => none
    else if c = obr then some ([], cs)
    else
      match findBrace cs with
      | some (pre, rest) => some (c :: pre, rest)
      | none => none

/-- Modelled from the spec: brace alternation of doublestar patterns, by
expansion into brace-free alternatives. Each expansion step removes one
matched brace pair and strictly shortens the text, so fuel one larger than
the pattern length always suffices; `none` signals a malformed group. -/
def expandB : Nat → List Char → Option (List (List Char))
  | 0, _ => none
  | fuel + 1, p =>
    match findBrace p with
    | none => some [p]
    | some (pre, rest) =>
      match braceBody (rest.length + 1) rest 0 [] [] with
      | none => none
      | some (alts, post) =>
        (alts.mapM (fun alt => expandB fuel (pre ++ alt ++ post))).map List.flatten

/-- Modelled from the spec: the items of a doublestar character class, read
after the opening bracket and optional negation, as closed character ranges
(a single character is a one-point range); a dash directly before the
closing bracket is a literal item; `none` on an unclosed or empty class or a
dangling escape. Each step consumes at least one character, so fuel one
larger than the text length always suffices. -/
def classItems : Nat → List Char → List (Char × Char) →
    Option (List (Char × Char) × List Char)
  | 0, _, _ => none
  | fuel + 1, l, acc =>
    match l with
    | [] => none
    | ']' :: cs => if acc = [] then none else some (acc.reverse, cs)
    | '\\' :: [] => none
    | '\\' :: d :: '-' :: ']' :: es => some ((('-', '-') :: (d, d) :: acc).reverse, es)
    | '\\' :: _ :: '-' :: '\\' :: [] => none
    | '\\' :: d :: '-' :: '\\' :: f :: fs => classItems fuel fs ((d, f) :: acc)
    | '\\' :: d :: '-' :: e :: es => classItems fuel es ((d, e) :: acc)
    | '\\' :: d :: rest => classItems fuel rest ((d, d) :: acc)
    | c :: '-' :: ']' :: es => some ((('-', '-') :: (c, c) :: acc).reverse, es)
    | _ :: '-' :: '\\' :: [] => none
    | c :: '-' :: '\\' :: f :: fs => classItems fuel fs ((c, f) :: acc)
    | c :: '-' :: e :: es => classItems fuel es ((c, e) :: acc)
    | c :: rest => classItems fuel rest ((c, c) :: acc)

/-- Modelled from the spec: a doublestar character class after its opening
bracket, with optional leading negation. -/
def parseClass (l : List Char) : Option (Bool × List (Char × Char) × List Char) :=
  match l with
  | '!' :: rest => (classItems (rest.length + 1) rest []).map (fun p => (true, p.1, p.2))
  | '^' :: rest => (classItems (rest.length + 1) rest []).map (fun p => (true, p.1, p.2))
  | _ => (classItems (l.length + 1) l []).map (fun p => (false, p.1, p.2))

/-- Whether a character falls in one of the ranges of a class. -/
def inClass (ranges : List (Char × Char)) (c : Char) : Bool :=
  ranges.any (fun r => decide (r.1 ≤ c) && decide (c ≤ r.2))

/-- Modelled from the spec: syntactic validity of the remainder of a
doublestar pattern segment (classes well formed, no dangling escape). Each
step consumes at least one character, so fuel one larger than the text
length always suffices. -/
def segOkF : Nat → List Char → Option Unit
  | 0, _ => none
  | fuel + 1, l =>
    match l with
    | [] => some ()
    | '\\' :: [] => none
    | '\\' :: _ :: ps => segOkF fuel ps
    | '[' :: ps =>
      match parseClass ps with
      | none => none
      | some t => segOkF fuel t.2.2
    | _ :: ps => segOkF fuel ps

/-- Syntactic validity of one pattern segment. -/
def segOk (l : List Char) : Option Unit := segOkF (l.length + 1) l

/-- Modelled from the spec: matching one brace-free doublestar pattern
segment against one path component; star matches within the component,
question mark one character, classes one character; `none` signals a
malformed pattern (the remaining segment is still validated after a
mismatch, as the library reports bad patterns independently of the name).
Every recursive call shrinks the pattern or the component, so fuel larger
than the product of their successors always suffices. -/
def matchSegF : Nat → List Char → List Char → Option Bool
  | 0, _, _ => none
  | fuel + 1, pattern, name =>
    match pattern, name with
    | [], [] => some true
    | [], _ :: _ => some false
    | '*' :: ps, ns =>
      match matchSegF fuel ps ns with
      | none => none
      | some b =>
        match ns with
        | [] => some b
        | _ :: ns2 =>
          match matchSegF fuel ('*' :: ps) ns2 with
          | none => none
          | some b2 => some (b || b2)
    | '?' :: ps, [] => (segOk ps).map (fun _ => false)
    | '?' :: ps, _ :: ns => matchSegF fuel ps ns
    | '[' :: ps, ns =>
      match parseClass ps with
      | none => none
      | some (neg, items, rest) =>
        match ns with
        | [] => (segOk rest).map (fun _ => false)
        | n :: ns2 =>
          if inClass items n ≠ neg then matchSegF fuel rest ns2
          else (segOk rest).map (fun _ => false)
    | '\\' :: [], _ => none
    | '\\' :: _ :: ps, [] => (segOk ps).map (fun _ => false)
    | '\\' :: c :: ps, n :: ns =>
      if c = n then matchSegF fuel ps ns else (segOk ps).map (fun _ => false)
    | _ :: ps, [] => (segOk ps).map (fun _ => false)
    | c :: ps, n :: ns =>
      if c = n then matchSegF fuel ps ns else (segOk ps).map (fun _ => false)

/-- Matching one pattern segment against one component. -/
def matchSeg (p n : List Char) : Option Bool :=
  matchSegF ((p.length + 1) * (n.length + 1) + 1) p n

/-- Validity of a list of pattern segments. -/
def segsOk : List (List Char) → Option Unit
  | [] => some ()
  | p :: ps => (segOk p).bind (fun _ => segsOk ps)

/-- Modelled from the spec: matching a slash-split doublestar pattern
against a slash-split name; a component consisting of exactly two stars
matches zero or more whole components. Every recursive call shrinks the
pattern or the name, so fuel larger than the product of their successors
always suffices. -/
def matchCompsF : Nat → List (List Char) → List (List Char) → Option Bool
  | 0, _, _ => none
  | fuel + 1, pattern, name =>
    match pattern, name with
    | [], [] => some true
    | [], _ :: _ => some false
    | p :: ps, ns =>
      if p = ['*', '*'] then
        match matchCompsF fuel ps ns with
        | none => none
        | some b =>
          match ns with
          | [] => some b
          | _ :: ns2 =>
            match matchCompsF fuel (p :: ps) ns2 with
            | none => none
            | some b2 => some (b || b2)
      else
        match ns with
        | [] => (segsOk (p :: ps)).map (fun _ => false)
        | n :: ns2 =>
          match matchSeg p n with
          | none => none
          | some true => matchCompsF fuel ps ns2
          | some false => (segsOk ps).map (fun _ => false)

/-- Matching split pattern components against split name components. -/
def matchComps (p n : List (List Char)) : Option Bool :=
  matchCompsF ((p.length + 1) * (n.length + 1) + 1) p n

/-- Modelled from the spec: doublestar.Match of the external pattern library
(its source is not part of this repository). Brace groups are expanded into
alternatives, each alternative is matched component-wise, and `none` stands
for the bad-pattern error. -/
def dsMatch (pattern path : String) : Option Bool :=
  match expandB (pattern.length + 1) pattern.data with
  | none => none
  | some alts =>
    (alts.mapM (fun p => matchComps (splitOnChar '/' p) (splitOnChar '/' path.data))).map
      (fun rs => rs.any id)

/-- The loop body of isExcluded over the pattern list: each raw pattern is
slash-normalised, its directory-only marker is the trailing slash, one
trailing then one leading slash are stripped, and the first match that is
not vetoed by the directory-only rule returns true. -/
def isExcludedLoop (cpath : String) (isDir : Bool) : List String → Except Unit Bool
  | [] => .ok false
  | raw :: rest =>
    let pat0 := toSlash raw
    let needDirMatch := strEndsWith pat0 "/"
    let pat := dropOneLeadSlash (dropOneTrailSlash pat0)
    match dsMatch pat cpath with
    | none => .error ()
    | some true =>
      if needDirMatch && !isDir then isExcludedLoop cpath isDir rest else .ok true
    | some false => isExcludedLoop cpath isDir rest

/-- Embedding of isExcluded: the candidate path is cleaned and
slash-normalised, then tested against each pattern in order; a bad pattern
aborts with the pattern error. -/
def isExcluded (path : String) (isDir : Bool) (excludes : List String) : Except Unit Bool :=
  isExcludedLoop (toSlash (cleanPath path)) isDir excludes

/-- One line of an excludes file as the scanner yields it: the trailing
carriage return of a CRLF ending is dropped. -/
def dropCR (s : String) : String :=
  if strEndsWith s "\r" then ⟨s.data.dropLast⟩ else s

/-- The lines an excludes file scanner yields: newline-separated, with no
final empty token when the text ends in a newline. -/
def splitLines (content : String) : List String :=
  if content = "" then []
  else
    let parts := splitStr '\n' content
    if parts.getLast? = some "" then parts.dropLast else parts

/-- The excludes file as the operation sees it: absent (empty flag), failing
to open, or present with its full text. -/
inductive ExcludesFile where
  | absent : ExcludesFile
  | openErr : ExcludesFile
  | text (content : String) : ExcludesFile

/-- Embedding of the scanner loop of Program.mergeExcludes: starting from
the given accumulator, each line is whitespace-trimmed, empty and
hash-prefixed lines are skipped, and kept lines are appended in order. -/
def scanLinesAcc (acc : List String) : List String → List String
  | [] => acc
  | line :: rest =>
    let l := strTrim line
    if l = "" ∨ strStartsWith l "#" then scanLinesAcc acc rest
    else scanLinesAcc (acc ++ [l]) rest

/-- Embedding of Program.mergeExcludes: an absent file contributes nothing,
an open failure is fatal, and otherwise the kept lines of the file are
collected first and the inline exclude arguments are appended after them. -/
def mergeExcludes (excludeSlice : List String) (file : ExcludesFile) :
    Except Unit (List String) :=
  match file with
  | .absent => .ok ([] ++ excludeSlice)
  | .openErr => .error ()
  | .text content =>
    .ok (scanLinesAcc [] ((splitLines content).map dropCR) ++ excludeSlice)

/-- The per-line filter of mergeExcludes as a one-line specification, used
to state what the scanner loop collects. -/
def keepLine (line : String) : Option String :=
  let l := strTrim line
  if l = "" ∨ strStartsWith l "#" then none else some l

/-- The fields of a produced tar header that the embedding tracks. Go's tar
type flags are the bytes for the digits 0 and 5; the spec numbers them 0 and
5, and the embedding follows that numbering. -/
structure TarHeader where
  name : String
  mode : Nat
  typeflag : Nat
  size : Nat
  mtimeZero : Bool
deriving DecidableEq, Repr

/-- Base permissions for regular placeholder entries. -/
def baseFilePerms : Nat := 0o666

/-- Base permissions for directory placeholder entries. -/
def baseFolderPerms : Nat := 0o777

/-- The regular-file tar type flag. -/
def tarTypeReg : Nat := 0

/-- The directory tar type flag. -/
def tarTypeDir : Nat := 5

/-- Embedding of writeDummyFile: the header written for one placeholder
entry (the surrounding tar writer is not modelled; the header fields are).
The name is slash-normalised; a directory gets directory mode and type flag
and a trailing slash appended when none is present; a regular entry gets
file mode and type flag and the name unchanged; size is zero and the
modification time is the zero epoch in both cases. -/
def writeDummyFile (name : String) (isDir : Bool) : TarHeader :=
  let n := toSlash name
  if isDir then
    { name := if strEndsWith n "/" then n else n ++ "/",
      mode := baseFolderPerms, typeflag := tarTypeDir, size := 0, mtimeZero := true }
  else
    { name := n, mode := baseFilePerms, typeflag := tarTypeReg, size := 0, mtimeZero := true }

/-- A node of the modelled filesystem tree. -/
inductive FNode where
  | file (name : String) : FNode
  | dir (name : String) (children : List FNode) : FNode
deriving Repr

/-- The entry name of a node. -/
def FNode.name : FNode → String
  | .file n => n
  | .dir n _ => n

/-- Whether a node is a directory. -/
def FNode.isDir : FNode → Bool
  | .file _ => false
  | .dir _ _ => true

/-- Join a parent-relative path with an entry name, as the walker builds it. -/
def relJoin (pre name : String) : String :=
  if pre = "" then name else pre ++ "/" ++ name

mutual

/-- The visit sequence the walker callback produces for one node whose
relative path is rel, after the exclusion test of the callback: an excluded
directory prunes its whole subtree (SkipDir), an excluded file is dropped,
and otherwise the pair of the relative path and the directory flag is
emitted before the children; a bad pattern aborts the walk. -/
def visitNode (excludes : List String) (rel : String) : FNode → Except Unit (List (String × Bool))
  | .file _ =>
    match isExcluded rel false excludes with
    | .error e => .error e
    | .ok true => .ok []
    | .ok false => .ok [(rel, false)]
  | .dir _ cs =>
    match isExcluded rel true excludes with
    | .error e => .error e
    | .ok true => .ok []
    | .ok false =>
      match visitList excludes rel cs with
      | .error e => .error e
      | .ok rest => .ok ((rel, true) :: rest)

/-- The visit sequence for a sibling list under the given parent-relative
path, in the walker's order. -/
def visitList (excludes : List String) (pre : String) : List FNode → Except Unit (List (String × Bool))
  | [] => .ok []
  | e :: es =>
    match visitNode excludes (relJoin pre e.name) e with
    | .error err => .error err
    | .ok vs =>
      match visitList excludes pre es with
      | .error err => .error err
      | .ok rest => .ok (vs ++ rest)

end

/-- Embedding of the record production of fsPathStream (before optional
sorting): the root visit is skipped by the path comparison of the callback,
each remaining visit is slash-normalised and directories get a trailing
slash. Walking a lone file visits only the root, hence yields nothing. -/
def fsRecordsRaw (root : FNode) (excludes : List String) : Except Unit (List String) :=
  match root with
  | .file _ => .ok []
  | .dir _ cs =>
    (visitList excludes "" cs).map
      (List.map (fun v => if v.2 then toSlash v.1 ++ "/" else toSlash v.1))

/-- Embedding of the record production of tarPathStream (before optional
sorting): header names are emitted verbatim in archive order, the directory
test for the exclusion check is the trailing slash, excluded names are
dropped, and a bad pattern aborts. -/
def tarRecordsRaw (excludes : List String) : List String → Except Unit (List String)
  | [] => .ok []
  | n :: rest =>
    match isExcluded n (strEndsWith n "/") excludes with
    | .error e => .error e
    | .ok true => tarRecordsRaw excludes rest
    | .ok false => (tarRecordsRaw excludes rest).map (fun l => n :: l)

/-- Insertion of one record into a sorted record list. -/
def insertStr (a : String) : List String → List String
  | [] => [a]
  | b :: bs => if charsLt b.data a.data then b :: insertStr a bs else a :: b :: bs

/-- Modelled from the spec: the external sorter produces the
byte-lexicographic sort of its input stream (the sorting library is not part
of this repository). -/
def sortStrs (l : List String) : List String := l.foldr insertStr []

/-- A diff input as resolved by stat: a directory tree or a tarball listing. -/
inductive Source where
  | dir (root : FNode) : Source
  | tarball (names : List String) : Source

/-- The records of one diff input before sorting. -/
def sourceRecords (s : Source) (excludes : List String) : Except Unit (List String) :=
  match s with
  | .dir root => fsRecordsRaw root excludes
  | .tarball names => tarRecordsRaw excludes names

/-- The side of a delta event. -/
inductive Delta where
  | old : Delta
  | new : Delta
deriving DecidableEq, Repr

/-- The tail of the diff merge when the old side is exhausted: every
remaining new-side record is an extra on side B. -/
def diffAllNew : List String → List (Delta × String) × Nat × Nat
  | [] => ([], 0, 0)
  | b :: rb =>
    let r := diffAllNew rb
    ((.new, b) :: r.1, r.2.1, r.2.2 + 1)

/-- One round of the diff merge with a fixed old-side lookahead a and the
rest of the old side handled by the continuation dm: new-side records
smaller than a are emitted as extras on side B, an equal record cancels a,
and a larger one emits a as an extra on side A. -/
def diffGo (a : String) (dm : List String → List (Delta × String) × Nat × Nat) :
    List String → List (Delta × String) × Nat × Nat
  | [] =>
    let r := dm []
    ((.old, a) :: r.1, r.2.1 + 1, r.2.2)
  | b :: rb =>
    if a = b then dm rb
    else if charsLt a.data b.data then
      let r := dm (b :: rb)
      ((.old, a) :: r.1, r.2.1 + 1, r.2.2)
    else
      let r := diffGo a dm rb
      ((.new, b) :: r.1, r.2.1, r.2.2 + 1)

/-- Modelled from the spec: the two-way ordered merge of the external diff
engine (its source is not part of this repository). One lookahead record per
side; equal records advance both sides silently; otherwise the smaller side
emits its record and the respective extra counter advances. Returns the
delta events in order together with the counts extraA and extraB. -/
def diffMerge : List String → List String → List (Delta × String) × Nat × Nat
  | [], b => diffAllNew b
  | a :: ra, b => diffGo a (diffMerge ra) b

/-- The failure modes of the modelled operations. -/
inductive OpErr where
  | createFail : OpErr
  | gzipFail : OpErr
  | concFail : OpErr
  | cancelled : OpErr
  | patternErr : OpErr
  | statFail : OpErr
  | streamFail : OpErr
deriving DecidableEq, Repr

/-- The observable filesystem events of a Diff run that the claims order. -/
inductive Ev where
  | createOut : Ev
  | statOld : Ev
  | statNew : Ev
  | removeOut : Ev
deriving DecidableEq, Repr

/-- The return value of Diff: success with counts, the DiffsFound sentinel
with counts, or a failure. -/
inductive DiffOutcome where
  | ok (extraA extraB : Nat) : DiffOutcome
  | diffsFound (extraA extraB : Nat) : DiffOutcome
  | fail (e : OpErr) : DiffOutcome
deriving DecidableEq, Repr

/-- The inputs of a modelled Diff invocation: the prior existence of the
output path, the success of the eager output creation, the validity of the
gzip level, cancellation, the two stat-resolved sources (none is a stat
failure), and the exclude patterns. -/
structure DiffIn where
  preExists : Bool
  createOk : Bool
  gzipOk : Bool
  cancelled : Bool
  oldSrc : Option Source
  newSrc : Option Source
  excludes : List String

/-- What a modelled Diff invocation produces. -/
structure DiffRes where
  outcome : DiffOutcome
  events : List (Delta × String)
  stdoutLines : List String
  trace : List Ev
  outExists : Bool

/-- The stdout line of one delta event. -/
def deltaLine (d : Delta × String) : String :=
  match d.1 with
  | .old => "--- " ++ d.2
  | .new => "+++ " ++ d.2

/-- Embedding of Program.Diff: the output file is created first (truncating
any prior file); on create failure the filesystem is untouched. Then the
gzip writer is initialised, each side is stat-resolved and streamed through
the sorter, and the sorted streams are merged. The deferred removal deletes
the output whenever the run ends without differences, including every error
return after the successful create. -/
def DiffRun (i : DiffIn) : DiffRes :=
  if !i.createOk then
    ⟨.fail .createFail, [], [], [.createOut], i.preExists⟩
  else if !i.gzipOk then
    ⟨.fail .gzipFail, [], [], [.createOut, .removeOut], false⟩
  else
    match i.oldSrc with
    | none => ⟨.fail .statFail, [], [], [.createOut, .statOld, .removeOut], false⟩
    | some so =>
      match i.newSrc with
      | none =>
        ⟨.fail .statFail, [], [], [.createOut, .statOld, .statNew, .removeOut], false⟩
      | some sn =>
        if i.cancelled then
          ⟨.fail .cancelled, [], [], [.createOut, .statOld, .statNew, .removeOut], false⟩
        else
          match sourceRecords so i.excludes, sourceRecords sn i.excludes with
          | .error _, _ =>
            ⟨.fail .streamFail, [], [], [.createOut, .statOld, .statNew, .removeOut], false⟩
          | .ok _, .error _ =>
            ⟨.fail .streamFail, [], [], [.createOut, .statOld, .statNew, .removeOut], false⟩
          | .ok la, .ok lb =>
            let m := diffMerge (sortStrs la) (sortStrs lb)
            if 0 < m.2.1 ∨ 0 < m.2.2 then
              ⟨.diffsFound m.2.1 m.2.2, m.1, m.1.map deltaLine,
               [.createOut, .statOld, .statNew], true⟩
            else
              ⟨.ok m.2.1 m.2.2, m.1, m.1.map deltaLine,
               [.createOut, .statOld, .statNew, .removeOut], false⟩

/-- The inputs of a modelled Create invocation: prior existence of the
output path, success of the eager creation, validity of the gzip level and
of the concurrency settings, cancellation, the root node with the path it
was named by, and the exclude patterns. -/
structure CreateIn where
  preExists : Bool
  createOk : Bool
  gzipOk : Bool
  concOk : Bool
  cancelled : Bool
  root : FNode
  rootPath : String
  excludes : List String

/-- What a modelled Create invocation produces. Archive entries and stdout
lines are reported for completed runs; an aborted run removes its partial
output, so only the error and the final output existence are meaningful. -/
structure CreateRes where
  err : Option OpErr
  archive : List TarHeader
  stdoutLines : List String
  outExists : Bool

/-- Embedding of Program.Create: the output file is created first (on
failure the filesystem is untouched), the parallel gzip writer is
initialised and configured, and the walk writes one dummy header per
non-excluded visit while printing the walked path - not the archive entry
name - to stdout. The deferred removal deletes the output on every error
return after the successful create. -/
def CreateRun (i : CreateIn) : CreateRes :=
  if !i.createOk then ⟨some .createFail, [], [], i.preExists⟩
  else if !i.gzipOk then ⟨some .gzipFail, [], [], false⟩
  else if !i.concOk then ⟨some .concFail, [], [], false⟩
  else if i.cancelled then ⟨some .cancelled, [], [], false⟩
  else
    match i.root with
    | .file _ => ⟨none, [], [], true⟩
    | .dir _ cs =>
      match visitList i.excludes "" cs with
      | .error _ => ⟨some .patternErr, [], [], false⟩
      | .ok vs =>
        ⟨none, vs.map (fun v => writeDummyFile v.1 v.2),
         vs.map (fun v => i.rootPath ++ "/" ++ v.1), true⟩

/-- Which upstream feeds an observation of the error-merging loop. -/
inductive Src where
  | ext : Src
  | sorter : Src
deriving DecidableEq, Repr

/-- One channel event offered to the merging loop: `none` is a read from a
closed channel, `some none` a received nil error, `some (some e)` a
received non-nil error. -/
abbrev Obs (E : Type) := Src × Option (Option E)

/-- Whether a source is still selectable. -/
def srcOn (extOn sortOn : Bool) : Src → Bool
  | .ext => extOn
  | .sorter => sortOn

/-- Embedding of the error-merging goroutine of extsortStrings, as a
function of the event sequence the scheduler offers: a consumed non-nil
error is sent downstream and the loop returns; a closed channel or a
received nil error sets the corresponding channel variable to nil, so that
source is never selected again and its later events stay unconsumed.
Returns the delivered errors and the consumed events. -/
def mergeErrsRun {E : Type} (extOn sortOn : Bool) : List (Obs E) → List E × List (Obs E)
  | [] => ([], [])
  | (s, v) :: rest =>
    if !(srcOn extOn sortOn s) then mergeErrsRun extOn sortOn rest
    else
      match v with
      | some (some e) => ([e], [(s, v)])
      | some none =>
        let next := mergeErrsRun (extOn && s ≠ Src.ext) (sortOn && s ≠ Src.sorter) rest
        (next.1, (s, v) :: next.2)
      | none =>
        let next := mergeErrsRun (extOn && s ≠ Src.ext) (sortOn && s ≠ Src.sorter) rest
        (next.1, (s, v) :: next.2)

/-- The non-nil error carried by one observation, if any. -/
def obsVal {E : Type} (o : Obs E) : Option E :=
  match o.2 with
  | some (some e) => some e
  | _ => none

/-- The pattern normalisation isExcluded applies before matching: slash
conversion, then one trailing and one leading slash stripped. -/
def patNorm (p : String) : String :=
  dropOneLeadSlash (dropOneTrailSlash (toSlash p))

/-- A well-formed filesystem entry name: nonempty, not a dot component, and
free of separators. -/
def goodName (n : String) : Bool :=
  n ≠ "" && n ≠ "." && n ≠ ".." && !(n.data.contains '/')

mutual

/-- Well-formedness of a tree node: its name and all names below are
well formed and sibling names are distinct. -/
def wfNode : FNode → Bool
  | .file n => goodName n
  | .dir n cs => goodName n && wfList cs

/-- Well-formedness of a sibling list. -/
def wfList : List FNode → Bool
  | [] => true
  | e :: es => wfNode e && es.all (fun x => x.name != e.name) && wfList es

end

/-- The child of a sibling list carrying the given name. -/
def childNamed (n : String) : List FNode → Option FNode
  | [] => none
  | e :: es => if e.name = n then some e else childNamed n es

/-- The node reached from a root by following a component path. -/
def nodeAt : FNode → List String → Option FNode
  | e, [] => some e
  | .file _, _ :: _ => none
  | .dir _ cs, n :: rest =>
    match childNamed n cs with
    | none => none
    | some c => nodeAt c rest

/-- The relative path rendered from a component list. -/
def pathOf (comps : List String) : String := comps.foldl relJoin ""

/-- The record emitted for an entry at a component path: directories carry
the trailing slash. -/
def renderRec (comps : List String) (isDir : Bool) : String :=
  if isDir then pathOf comps ++ "/" else pathOf comps

/-- The character data a component list contributes after the first
component: a slash before each further component. -/
def tailChars : List String → List Char
  | [] => []
  | n :: rest => '/' :: (n.data ++ tailChars rest)

/-- The entry e2 lives at the component path comps below e. -/
inductive LivesAt : FNode → List String → FNode → Prop where
  | refl (e : FNode) : LivesAt e [] e
  | step {n : String} {cs : List FNode} {c e2 : FNode} {rest : List String} :
      c ∈ cs → LivesAt c rest e2 → LivesAt (.dir n cs) (c.name :: rest) e2

/-! Basic facts about the embedded string primitives. -/

theorem toSlash_eq_self (s : String) : toSlash s = s := by
  apply String.ext
  show s.data.map (fun c => if c = pathSep then '/' else c) = s.data
  have h : ∀ c ∈ s.data, (if c = pathSep then '/' else c) = id c := by
    intro c _
    by_cases hc : c = pathSep
    · rw [if_pos hc, hc]
      rfl
    · rw [if_neg hc]
      rfl
  rw [List.map_congr_left h, List.map_id]

theorem isPrefixOf_single {c : Char} {l : List Char} :
    List.isPrefixOf [c] l = true ↔ l.head? = some c := by
  cases l with
  | nil => simp [List.isPrefixOf]
  | cons x xs =>
    show (c == x && List.isPrefixOf ([] : List Char) xs) = true ↔ _
    simp only [List.isPrefixOf, Bool.and_true, beq_iff_eq, List.head?, Option.some_inj]
    exact eq_comm

theorem strEndsWith_slash_iff (s : String) :
    strEndsWith s "/" = true ↔ s.data.getLast? = some '/' := by
  show List.isSuffixOf ['/'] s.data = true ↔ _
  rw [List.isSuffixOf, List.reverse_singleton, isPrefixOf_single]
  simp [List.head?_reverse]

theorem strEndsWith_append_slash (x : String) : strEndsWith (x ++ "/") "/" = true := by
  rw [strEndsWith_slash_iff, String.data_append]
  simp

theorem dropOneTrailSlash_append (x : String) : dropOneTrailSlash (x ++ "/") = x := by
  unfold dropOneTrailSlash
  rw [if_pos (strEndsWith_append_slash x)]
  apply String.ext
  show (x ++ "/").data.dropLast = x.data
  rw [String.data_append]
  simp

theorem dropOneTrailSlash_of_no_slash (s : String) (h : s.data.getLast? ≠ some '/') :
    dropOneTrailSlash s = s := by
  unfold dropOneTrailSlash
  rw [if_neg]
  intro hc
  exact h ((strEndsWith_slash_iff s).mp hc)

/-! The merged exclude list: claim C6. -/

theorem scanLinesAcc_filterMap (lines : List String) (acc : List String) :
    scanLinesAcc acc lines = acc ++ lines.filterMap keepLine := by
  induction lines generalizing acc with
  | nil => simp [scanLinesAcc]
  | cons l rest ih =>
    by_cases h : strTrim l = "" ∨ strStartsWith (strTrim l) "#" = true
    · simp only [scanLinesAcc, keepLine]
      rw [if_pos h, ih, List.filterMap_cons]
      simp [keepLine, h]
    · simp only [scanLinesAcc, keepLine]
      rw [if_neg h, ih, List.filterMap_cons]
      simp [keepLine, h]

/-- C6 counterexample: with inline patterns three, four and a file holding
the lines one and two, the merged list is the file lines followed by the
inline patterns, not the inline patterns followed by the file lines as the
claim states. -/
theorem mergeExcludes_order_cex :
    mergeExcludes ["three", "four"] (.text "one\ntwo\n") = .ok ["one", "two", "three", "four"] ∧
    mergeExcludes ["three", "four"] (.text "one\ntwo\n") ≠ .ok ["three", "four", "one", "two"] := by
  constructor
  · decide
  · decide

/-- C6 (amended): for every inline exclude list and every readable excludes
file, the merged pattern list consists of the file's trimmed lines with
hash-prefixed and blank lines removed, concatenated BEFORE the inline
exclude arguments (file patterns first, inline patterns second). -/
theorem mergeExcludes_file_patterns_first (slice : List String) (content : String) :
    mergeExcludes slice (.text content) =
      .ok (((splitLines content).map dropCR).filterMap keepLine ++ slice) := by
  simp [mergeExcludes, scanLinesAcc_filterMap]

/-! The dummy tar headers: claim C7. -/

/-- C7 counterexample: writeDummyFile does not strip slashes, so a regular
entry named with a trailing slash keeps it (the claim requires no trailing
slash on regular entries), and a directory entry already ending in two
slashes keeps both (the claim requires exactly one). -/
theorem writeDummyFile_slash_cex :
    (writeDummyFile "a/" false).name = "a/" ∧
    (writeDummyFile "a//" true).name = "a//" := by
  constructor
  · decide
  · decide

/-- C7 (amended): every dummy header has size zero and the zero epoch as
modification time; a directory header has type flag 5, mode 0o777 and a
name ending in a slash, appended exactly when the slash-normalised input
carries none; a regular header has type flag 0, mode 0o666 and the
slash-normalised name unchanged (so a trailing slash is absent exactly when
the input carries none). -/
theorem writeDummyFile_header_fields (name : String) (isDir : Bool) :
    (writeDummyFile name isDir).size = 0 ∧
    (writeDummyFile name isDir).mtimeZero = true ∧
    (isDir = true → (writeDummyFile name isDir).typeflag = 5 ∧
      (writeDummyFile name isDir).mode = 0o777 ∧
      strEndsWith (writeDummyFile name isDir).name "/" = true ∧
      (strEndsWith (toSlash name) "/" = false →
        (writeDummyFile name isDir).name = toSlash name ++ "/")) ∧
    (isDir = false → (writeDummyFile name isDir).typeflag = 0 ∧
      (writeDummyFile name isDir).mode = 0o666 ∧
      (writeDummyFile name isDir).name = toSlash name) := by
  cases isDir with
  | false => simp [writeDummyFile, baseFilePerms, tarTypeReg]
  | true =>
    refine ⟨by simp [writeDummyFile], by simp [writeDummyFile], fun _ => ?_, by simp⟩
    by_cases h : strEndsWith (toSlash name) "/" = true
    · simp [writeDummyFile, baseFolderPerms, tarTypeDir, h]
    · simp only [writeDummyFile, baseFolderPerms, tarTypeDir, h]
      simp only [Bool.false_eq_true, if_false]
      exact ⟨rfl, rfl, strEndsWith_append_slash _, fun _ => rfl⟩

/-- C7 witness: the amended header description evaluated at a concrete
directory entry. -/
theorem writeDummyFile_header_fields_witness :
    (writeDummyFile "b" true).size = 0 ∧ (writeDummyFile "b" true).name = "b/" := by
  have h := writeDummyFile_header_fields "b" true
  refine ⟨h.1, ?_⟩
  have h2 := (h.2.2.1 rfl).2.2.2 (by decide)
  rw [h2]
  decide

/-! The error-merging loop: claim C8. -/

theorem mergeErrsRun_spec {E : Type} (extOn sortOn : Bool) (obs : List (Obs E)) :
    (mergeErrsRun extOn sortOn obs).1.length ≤ 1 ∧
    (mergeErrsRun extOn sortOn obs).1 = (mergeErrsRun extOn sortOn obs).2.filterMap obsVal ∧
    List.Sublist (mergeErrsRun extOn sortOn obs).2 obs := by
  induction obs generalizing extOn sortOn with
  | nil => simp [mergeErrsRun]
  | cons o rest ih =>
    obtain ⟨s, v⟩ := o
    by_cases hon : srcOn extOn sortOn s = true
    · match v with
      | some (some e) =>
        simp [mergeErrsRun, hon, obsVal]
      | some none =>
        have h := ih (extOn && decide (s ≠ Src.ext)) (sortOn && decide (s ≠ Src.sorter))
        have hrun : mergeErrsRun extOn sortOn ((s, some none) :: rest) =
            ((mergeErrsRun (extOn && decide (s ≠ Src.ext))
                (sortOn && decide (s ≠ Src.sorter)) rest).1,
             (s, some none) ::
              (mergeErrsRun (extOn && decide (s ≠ Src.ext))
                (sortOn && decide (s ≠ Src.sorter)) rest).2) := by
          simp [mergeErrsRun, hon]
        rw [hrun]
        refine ⟨h.1, ?_, List.Sublist.cons₂ (s, some none) h.2.2⟩
        rw [List.filterMap_cons]
        simpa [obsVal] using h.2.1
      | none =>
        have h := ih (extOn && decide (s ≠ Src.ext)) (sortOn && decide (s ≠ Src.sorter))
        have hrun : mergeErrsRun extOn sortOn ((s, none) :: rest) =
            ((mergeErrsRun (extOn && decide (s ≠ Src.ext))
                (sortOn && decide (s ≠ Src.sorter)) rest).1,
             (s, none) ::
              (mergeErrsRun (extOn && decide (s ≠ Src.ext))
                (sortOn && decide (s ≠ Src.sorter)) rest).2) := by
          simp [mergeErrsRun, hon]
        rw [hrun]
        refine ⟨h.1, ?_, List.Sublist.cons₂ (s, none) h.2.2⟩
        rw [List.filterMap_cons]
        simpa [obsVal] using h.2.1
    · have h := ih extOn sortOn
      have hrun : mergeErrsRun extOn sortOn ((s, v) :: rest) =
          mergeErrsRun extOn sortOn rest := by
        simp [mergeErrsRun, hon]
      rw [hrun]
      exact ⟨h.1, h.2.1, List.Sublist.cons (s, v) h.2.2⟩

/-- C8: over every event sequence the scheduler can offer, the merging loop
of extsortStrings delivers at most one error downstream; what it delivers is
exactly the non-nil errors among the events it consumed (hence the first
non-nil error observed, everything after which stays unconsumed and is
discarded); the consumed events are an in-order selection of the offered
ones; and when no offered event carries a non-nil error nothing is
delivered and the merged channel just closes. -/
theorem mergeErrs_first_error_only {E : Type} (obs : List (Obs E)) :
    (mergeErrsRun true true obs).1.length ≤ 1 ∧
    (mergeErrsRun true true obs).1 = (mergeErrsRun true true obs).2.filterMap obsVal ∧
    List.Sublist (mergeErrsRun true true obs).2 obs ∧
    ((∀ o ∈ obs, obsVal o = none) → (mergeErrsRun true true obs).1 = []) := by
  obtain ⟨h1, h2, h3⟩ := mergeErrsRun_spec true true obs
  refine ⟨h1, h2, h3, fun hno => ?_⟩
  rw [h2, List.filterMap_eq_nil_iff]
  intro o ho
  exact hno o (h3.subset ho)

/-! The diff merge and the Diff orchestration: claims C1, C3, C10, part of C2. -/

theorem diffMerge_self (l : List String) : diffMerge l l = ([], 0, 0) := by
  induction l with
  | nil => rfl
  | cons a ra ih =>
    show diffGo a (diffMerge ra) (a :: ra) = ([], 0, 0)
    unfold diffGo
    rw [if_pos rfl]
    exact ih

theorem diffAllNew_len (b : List String) :
    (diffAllNew b).1.length = (diffAllNew b).2.1 + (diffAllNew b).2.2 := by
  induction b with
  | nil => rfl
  | cons b1 rb ih =>
    simp only [diffAllNew, List.length_cons, ih]
    omega

theorem diffGo_len (a : String)
    (dm : List String → List (Delta × String) × Nat × Nat)
    (hdm : ∀ x, (dm x).1.length = (dm x).2.1 + (dm x).2.2) (b : List String) :
    (diffGo a dm b).1.length = (diffGo a dm b).2.1 + (diffGo a dm b).2.2 := by
  induction b with
  | nil =>
    simp only [diffGo, List.length_cons, hdm []]
    omega
  | cons b1 rb ih =>
    unfold diffGo
    by_cases h : a = b1
    · rw [if_pos h]
      exact hdm rb
    · rw [if_neg h]
      by_cases h2 : charsLt a.data b1.data = true
      · simp only [h2, if_true, List.length_cons, hdm (b1 :: rb)]
        omega
      · simp only [h2, Bool.false_eq_true, if_false, List.length_cons, ih]
        omega

theorem diffMerge_len (x : List String) :
    ∀ y, (diffMerge x y).1.length = (diffMerge x y).2.1 + (diffMerge x y).2.2 := by
  induction x with
  | nil => exact diffAllNew_len
  | cons a ra ih => exact fun y => diffGo_len a (diffMerge ra) ih y

/-- C1: for every source (directory tree or tarball listing) whose stream
production succeeds, running Diff with that source on both sides produces
zero delta events, returns plain success with zero counts rather than the
DiffsFound sentinel, and leaves no file at the output path - even when a
file pre-existed there. -/
theorem diff_same_source (pre : Bool) (S : Source) (excludes : List String)
    (h : ∃ l, sourceRecords S excludes = .ok l) :
    (DiffRun ⟨pre, true, true, false, some S, some S, excludes⟩).events = [] ∧
    (DiffRun ⟨pre, true, true, false, some S, some S, excludes⟩).outcome = .ok 0 0 ∧
    (DiffRun ⟨pre, true, true, false, some S, some S, excludes⟩).outExists = false := by
  obtain ⟨l, hl⟩ := h
  have hm := diffMerge_self (sortStrs l)
  simp [DiffRun, hl, hm]

/-- C1 witness: a concrete tarball diffed against itself. -/
theorem diff_same_source_witness :
    (DiffRun ⟨true, true, true, false, some (.tarball ["a.txt"]),
        some (.tarball ["a.txt"]), []⟩).events = [] ∧
    (DiffRun ⟨true, true, true, false, some (.tarball ["a.txt"]),
        some (.tarball ["a.txt"]), []⟩).outcome = .ok 0 0 ∧
    (DiffRun ⟨true, true, true, false, some (.tarball ["a.txt"]),
        some (.tarball ["a.txt"]), []⟩).outExists = false :=
  diff_same_source true (.tarball ["a.txt"]) [] ⟨["a.txt"], by decide⟩

/-- C3: whenever Diff completes without an upstream failure (output created,
gzip initialised, not cancelled, both sources resolved and streamed), it
returns the DiffsFound sentinel exactly when the accumulated counts satisfy
extraA + extraB > 0, which holds exactly when at least one delta event was
produced; otherwise it returns plain success with the counts. -/
theorem diff_sentinel_iff (i : DiffIn) (so sn : Source) (la lb : List String)
    (hc : i.createOk = true) (hg : i.gzipOk = true) (hcl : i.cancelled = false)
    (ho : i.oldSrc = some so) (hn : i.newSrc = some sn)
    (ha : sourceRecords so i.excludes = .ok la) (hb : sourceRecords sn i.excludes = .ok lb) :
    ((∃ a b, (DiffRun i).outcome = .diffsFound a b) ↔
      0 < (diffMerge (sortStrs la) (sortStrs lb)).2.1 +
          (diffMerge (sortStrs la) (sortStrs lb)).2.2) ∧
    ((∃ a b, (DiffRun i).outcome = .diffsFound a b) ↔ (DiffRun i).events ≠ []) ∧
    ((¬ ∃ a b, (DiffRun i).outcome = .diffsFound a b) →
      (DiffRun i).outcome =
        .ok (diffMerge (sortStrs la) (sortStrs lb)).2.1
            (diffMerge (sortStrs la) (sortStrs lb)).2.2) := by
  obtain ⟨pre, cok, gok, cl, osrc, nsrc, ex⟩ := i
  simp only at hc hg hcl ho hn ha hb
  subst hc
  subst hg
  subst hcl
  subst ho
  subst hn
  have hlen := diffMerge_len (sortStrs la) (sortStrs lb)
  by_cases hm : 0 < (diffMerge (sortStrs la) (sortStrs lb)).2.1 ∨
      0 < (diffMerge (sortStrs la) (sortStrs lb)).2.2
  · have hrun : DiffRun ⟨pre, true, true, false, some so, some sn, ex⟩ =
        ⟨.diffsFound (diffMerge (sortStrs la) (sortStrs lb)).2.1
            (diffMerge (sortStrs la) (sortStrs lb)).2.2,
         (diffMerge (sortStrs la) (sortStrs lb)).1,
         (diffMerge (sortStrs la) (sortStrs lb)).1.map deltaLine,
         [.createOut, .statOld, .statNew], true⟩ := by
      simp [DiffRun, ha, hb, hm]
    rw [hrun]
    refine ⟨⟨fun _ => by omega, fun _ => ⟨_, _, rfl⟩⟩, ⟨fun _ => ?_, fun _ => ⟨_, _, rfl⟩⟩, ?_⟩
    · intro hnil
      rw [show ((diffMerge (sortStrs la) (sortStrs lb)).1 : List (Delta × String)) = []
        from hnil] at hlen
      simp at hlen
      omega
    · intro hno
      exact absurd ⟨_, _, rfl⟩ hno
  · have hz1 : (diffMerge (sortStrs la) (sortStrs lb)).2.1 = 0 := by omega
    have hz2 : (diffMerge (sortStrs la) (sortStrs lb)).2.2 = 0 := by omega
    have hrun : DiffRun ⟨pre, true, true, false, some so, some sn, ex⟩ =
        ⟨.ok (diffMerge (sortStrs la) (sortStrs lb)).2.1
            (diffMerge (sortStrs la) (sortStrs lb)).2.2,
         (diffMerge (sortStrs la) (sortStrs lb)).1,
         (diffMerge (sortStrs la) (sortStrs lb)).1.map deltaLine,
         [.createOut, .statOld, .statNew, .removeOut], false⟩ := by
      simp [DiffRun, ha, hb, hm]
    rw [hrun]
    have hnil : (diffMerge (sortStrs la) (sortStrs lb)).1 = [] := by
      rw [← List.length_eq_zero]
      omega
    refine ⟨⟨fun hex => ?_, fun hsum => by omega⟩, ⟨fun hex => ?_, fun hne => ?_⟩, fun _ => rfl⟩
    · obtain ⟨a, b, hab⟩ := hex
      exact absurd hab (by simp)
    · obtain ⟨a, b, hab⟩ := hex
      exact absurd hab (by simp)
    · exact absurd hnil hne

/-- C3 witness: two concrete one-entry tarballs that differ. -/
theorem diff_sentinel_iff_witness :
    ((∃ a b, (DiffRun ⟨false, true, true, false, some (.tarball ["a"]),
        some (.tarball ["b"]), []⟩).outcome = .diffsFound a b) ↔
      0 < (diffMerge (sortStrs ["a"]) (sortStrs ["b"])).2.1 +
          (diffMerge (sortStrs ["a"]) (sortStrs ["b"])).2.2) ∧
    ((∃ a b, (DiffRun ⟨false, true, true, false, some (.tarball ["a"]),
        some (.tarball ["b"]), []⟩).outcome = .diffsFound a b) ↔
      (DiffRun ⟨false, true, true, false, some (.tarball ["a"]),
        some (.tarball ["b"]), []⟩).events ≠ []) := by
  have h := diff_sentinel_iff ⟨false, true, true, false, some (.tarball ["a"]),
      some (.tarball ["b"]), []⟩ (.tarball ["a"]) (.tarball ["b"]) ["a"] ["b"]
    rfl rfl rfl rfl rfl (by decide) (by decide)
  exact ⟨h.1, h.2.1⟩

/-- C10: in every Diff run the first filesystem event is the creation
(truncation) of the output file, before either source is stat-resolved; in
particular when the old source cannot be stat-resolved (and likewise the
new one), the run fails with a stat failure and the output path does not
exist on return - a pre-existing file there has been truncated and then
removed, not left untouched. -/
theorem diff_creates_output_before_stat (i : DiffIn) :
    (DiffRun i).trace.head? = some .createOut ∧
    (i.createOk = true → i.gzipOk = true → i.oldSrc = none →
      (DiffRun i).outcome = .fail .statFail ∧ (DiffRun i).outExists = false ∧
      (DiffRun i).trace = [.createOut, .statOld, .removeOut]) ∧
    (i.createOk = true → i.gzipOk = true → i.newSrc = none →
      ∀ so, i.oldSrc = some so →
      (DiffRun i).outcome = .fail .statFail ∧ (DiffRun i).outExists = false) := by
  obtain ⟨pre, cok, gok, cl, osrc, nsrc, ex⟩ := i
  refine ⟨?_, ?_, ?_⟩
  · cases cok with
    | false => simp [DiffRun]
    | true =>
      cases gok with
      | false => simp [DiffRun]
      | true =>
        cases osrc with
        | none => simp [DiffRun]
        | some so =>
          cases nsrc with
          | none => simp [DiffRun]
          | some sn =>
            cases cl with
            | true => simp [DiffRun]
            | false =>
              cases h1 : sourceRecords so ex with
              | error e => simp [DiffRun, h1]
              | ok la =>
                cases h2 : sourceRecords sn ex with
                | error e => simp [DiffRun, h1, h2]
                | ok lb =>
                  by_cases hm : 0 < (diffMerge (sortStrs la) (sortStrs lb)).2.1 ∨
                      0 < (diffMerge (sortStrs la) (sortStrs lb)).2.2
                  · simp [DiffRun, h1, h2, hm]
                  · simp [DiffRun, h1, h2, hm]
  · intro hc hg ho
    simp only at hc hg ho
    subst hc
    subst hg
    subst ho
    simp [DiffRun]
  · intro hc hg hn so hso
    simp only at hc hg hn hso
    subst hc
    subst hg
    subst hn
    subst hso
    simp [DiffRun]

/-- C10 witness: a missing old source with a pre-existing output file. -/
theorem diff_creates_output_before_stat_witness :
    (DiffRun ⟨true, true, true, false, none, some (.tarball []), []⟩).trace.head? =
      some .createOut ∧
    (DiffRun ⟨true, true, true, false, none, some (.tarball []), []⟩).outcome =
      .fail .statFail ∧
    (DiffRun ⟨true, true, true, false, none, some (.tarball []), []⟩).outExists = false := by
  have h := diff_creates_output_before_stat
    ⟨true, true, true, false, none, some (.tarball []), []⟩
  exact ⟨h.1, (h.2.1 rfl rfl rfl).1, (h.2.1 rfl rfl rfl).2.1⟩

/-- C2 counterexample: when the eager create of the output file fails while
a file already exists at the output path, the operation returns an error
and yet the output path still exists on return (the failed create leaves
the filesystem untouched, and no removal is attempted). -/
theorem output_atomicity_cex :
    (CreateRun ⟨true, false, true, true, false, .dir "src" [], "/src", []⟩).err =
      some .createFail ∧
    (CreateRun ⟨true, false, true, true, false, .dir "src" [], "/src", []⟩).outExists = true := by
  constructor
  · decide
  · decide

/-- C2 (amended): for every Create or Diff invocation whose eager creation
of the output file succeeds, if the operation returns an error, or Diff
completes having found no differences, the output path does not exist on
return (the eagerly created file is removed); when the eager create itself
fails the filesystem is left untouched, so a pre-existing file survives. -/
theorem output_removed_on_failure (ci : CreateIn) (di : DiffIn)
    (hc : ci.createOk = true) (hd : di.createOk = true) :
    ((CreateRun ci).err ≠ none → (CreateRun ci).outExists = false) ∧
    ((∃ e, (DiffRun di).outcome = .fail e) → (DiffRun di).outExists = false) ∧
    (∀ a b, (DiffRun di).outcome = .ok a b → (DiffRun di).outExists = false) := by
  constructor
  · obtain ⟨pre, cok, gok, conc, cl, root, rp, ex⟩ := ci
    simp only at hc
    subst hc
    cases gok with
    | false => simp [CreateRun]
    | true =>
      cases conc with
      | false => simp [CreateRun]
      | true =>
        cases cl with
        | true => simp [CreateRun]
        | false =>
          cases root with
          | file n => simp [CreateRun]
          | dir n cs =>
            cases h1 : visitList ex "" cs with
            | error e => simp [CreateRun, h1]
            | ok vs => simp [CreateRun, h1]
  · obtain ⟨pre, cok, gok, cl, osrc, nsrc, ex⟩ := di
    simp only at hd
    subst hd
    cases gok with
    | false => simp [DiffRun]
    | true =>
      cases osrc with
      | none => simp [DiffRun]
      | some so =>
        cases nsrc with
        | none => simp [DiffRun]
        | some sn =>
          cases cl with
          | true => simp [DiffRun]
          | false =>
            cases h1 : sourceRecords so ex with
            | error e => simp [DiffRun, h1]
            | ok la =>
              cases h2 : sourceRecords sn ex with
              | error e => simp [DiffRun, h1, h2]
              | ok lb =>
                by_cases hm : 0 < (diffMerge (sortStrs la) (sortStrs lb)).2.1 ∨
                    0 < (diffMerge (sortStrs la) (sortStrs lb)).2.2
                · simp [DiffRun, h1, h2, hm]
                · simp [DiffRun, h1, h2, hm]

/-- C2 witness: a failing gzip initialisation after a successful create
leads to an absent output for Create, and a missing source does for Diff. -/
theorem output_removed_on_failure_witness :
    (CreateRun ⟨true, true, false, true, false, .dir "s" [], "/s", []⟩).outExists = false ∧
    (DiffRun ⟨true, true, true, false, none, none, []⟩).outExists = false := by
  have h := output_removed_on_failure
    ⟨true, true, false, true, false, .dir "s" [], "/s", []⟩
    ⟨true, true, true, false, none, none, []⟩ rfl rfl
  exact ⟨h.1 (by decide), h.2.1 ⟨.statFail, by decide⟩⟩

/-! The exclude matcher: claim C4. -/

theorem isExcludedLoop_iff (cpath : String) (isDir : Bool) (l : List String)
    (hval : ∀ p ∈ l, dsMatch (patNorm p) cpath ≠ none) :
    isExcludedLoop cpath isDir l = .ok true ↔
      ∃ p ∈ l, dsMatch (patNorm p) cpath = some true ∧
        (strEndsWith (toSlash p) "/" = true → isDir = true) := by
  induction l with
  | nil => simp [isExcludedLoop]
  | cons q rest ih =>
    have hq : dsMatch (patNorm q) cpath ≠ none := hval q (by simp)
    have hrest : ∀ p ∈ rest, dsMatch (patNorm p) cpath ≠ none :=
      fun p hp => hval p (by simp [hp])
    have ihr := ih hrest
    have hunf : isExcludedLoop cpath isDir (q :: rest) =
        match dsMatch (patNorm q) cpath with
        | none => .error ()
        | some true =>
          if strEndsWith (toSlash q) "/" && !isDir then isExcludedLoop cpath isDir rest
          else .ok true
        | some false => isExcludedLoop cpath isDir rest := by
      simp [isExcludedLoop, patNorm]
    rw [hunf]
    match hm : dsMatch (patNorm q) cpath with
    | none => exact absurd hm hq
    | some true =>
      show (if (strEndsWith (toSlash q) "/" && !isDir) = true
          then isExcludedLoop cpath isDir rest else Except.ok true) = Except.ok true ↔ _
      by_cases hd : (strEndsWith (toSlash q) "/" && !isDir) = true
      · rw [if_pos hd]
        have hd2 : strEndsWith (toSlash q) "/" = true ∧ isDir = false := by
          have h1 := (Bool.and_eq_true _ _).mp hd
          exact ⟨h1.1, by have h2 := h1.2; revert h2; cases isDir <;> simp⟩
        rw [ihr]
        constructor
        · rintro ⟨p, hp, hc⟩
          exact ⟨p, by simp [hp], hc⟩
        · rintro ⟨p, hp, hc⟩
          rcases List.mem_cons.mp hp with hpq | hpr
          · subst hpq
            exact absurd (hc.2 hd2.1) (by simp [hd2.2])
          · exact ⟨p, hpr, hc⟩
      · rw [if_neg hd]
        constructor
        · intro _
          refine ⟨q, by simp, hm, fun hs => ?_⟩
          revert hd
          cases isDir with
          | false => simp [hs]
          | true => simp
        · intro _
          rfl
    | some false =>
      show isExcludedLoop cpath isDir rest = Except.ok true ↔ _
      rw [ihr]
      constructor
      · rintro ⟨p, hp, hc⟩
        exact ⟨p, by simp [hp], hc⟩
      · rintro ⟨p, hp, hc⟩
        rcases List.mem_cons.mp hp with hpq | hpr
        · subst hpq
          exact absurd hc.1 (by simp [hm])
        · exact ⟨p, hpr, hc⟩

/-- C4: for every path, directory flag and list of patterns that are valid
for that path, isExcluded returns true exactly when some pattern - after
slash normalisation and stripping of one leading and one trailing slash -
doublestar-matches the cleaned path and, when that pattern originally ended
in a slash, the candidate is a directory; in particular the pattern build/
matches a directory named build but not a file named build. -/
theorem isExcluded_doublestar_iff (path : String) (isDir : Bool) (excludes : List String)
    (hval : ∀ p ∈ excludes, dsMatch (patNorm p) (toSlash (cleanPath path)) ≠ none) :
    (isExcluded path isDir excludes = .ok true ↔
      ∃ p ∈ excludes, dsMatch (patNorm p) (toSlash (cleanPath path)) = some true ∧
        (strEndsWith (toSlash p) "/" = true → isDir = true)) ∧
    isExcluded "build" true ["build/"] = .ok true ∧
    isExcluded "build" false ["build/"] = .ok false := by
  refine ⟨?_, by decide, by decide⟩
  exact isExcludedLoop_iff (toSlash (cleanPath path)) isDir excludes hval

/-- C4 witness: the characterisation applied to the directory-only pattern
build/ against a directory named build. -/
theorem isExcluded_doublestar_iff_witness :
    (isExcluded "build" true ["build/"] = .ok true ↔
      ∃ p ∈ ["build/"], dsMatch (patNorm p) (toSlash (cleanPath "build")) = some true ∧
        (strEndsWith (toSlash p) "/" = true → true = true)) ∧
    isExcluded "build" true ["build/"] = .ok true := by
  have h := isExcluded_doublestar_iff "build" true ["build/"] (by decide)
  exact ⟨h.1, h.2.1⟩

/-! Walked relative paths never carry a trailing slash on well-formed
trees; the stdout lines of Create: claim C5. -/

theorem data_ne_nil_of_ne_empty {s : String} (h : s ≠ "") : s.data ≠ [] := by
  intro hd
  exact h (String.ext (by rw [hd]))

theorem getLast?_append_right {l1 l2 : List Char} (h : l2 ≠ []) :
    (l1 ++ l2).getLast? = l2.getLast? := by
  rw [List.getLast?_append]
  cases h2 : l2.getLast? with
  | none => exact absurd (List.getLast?_eq_none_iff.mp h2) h
  | some a => rfl

theorem goodName_parts {n : String} (h : goodName n = true) :
    n ≠ "" ∧ n ≠ "." ∧ n ≠ ".." ∧ ('/' : Char) ∉ n.data := by
  have h2 := h
  unfold goodName at h2
  rw [Bool.and_eq_true, Bool.and_eq_true, Bool.and_eq_true] at h2
  obtain ⟨⟨⟨ha, hb⟩, hc⟩, hd⟩ := h2
  refine ⟨by simpa using ha, by simpa using hb, by simpa using hc, ?_⟩
  intro hm
  have h5 : n.data.contains '/' = true := List.elem_iff.mpr hm
  rw [h5] at hd
  exact absurd hd (by simp)

theorem goodName_last_ne_slash {n : String} (h : goodName n = true) :
    n.data.getLast? ≠ some '/' := by
  intro hc
  exact (goodName_parts h).2.2.2 (List.mem_of_mem_getLast? hc)

theorem relJoin_getLast {pre n : String} (hn : n ≠ "") :
    (relJoin pre n).data.getLast? = n.data.getLast? := by
  unfold relJoin
  by_cases h : pre = ""
  · rw [if_pos h]
  · rw [if_neg h, String.data_append]
    exact getLast?_append_right (data_ne_nil_of_ne_empty hn)

mutual

/-- On a well-formed node, every visit record ends in the last character of
a well-formed entry name, never in a slash, provided the node's own
relative path does not end in one. -/
theorem visitNode_noTrail (ex : List String) (rel : String) (e : FNode)
    (vs : List (String × Bool)) (hwf : wfNode e = true)
    (hrel : rel.data.getLast? ≠ some '/')
    (h : visitNode ex rel e = .ok vs) :
    ∀ v ∈ vs, v.1.data.getLast? ≠ some '/' := by
  cases e with
  | file n =>
    intro v hv
    revert h
    unfold visitNode
    cases isExcluded rel false ex with
    | error e => intro h; exact absurd h (by simp)
    | ok b =>
      cases b with
      | true => intro h; injection h with h2; rw [← h2] at hv; exact absurd hv (by simp)
      | false =>
        intro h
        injection h with h2
        rw [← h2] at hv
        rcases List.mem_singleton.mp hv with hveq
        rw [hveq]
        exact hrel
  | dir n cs =>
    intro v hv
    revert h
    unfold visitNode
    cases isExcluded rel true ex with
    | error e => intro h; exact absurd h (by simp)
    | ok b =>
      cases b with
      | true => intro h; injection h with h2; rw [← h2] at hv; exact absurd hv (by simp)
      | false =>
        cases hrest : visitList ex rel cs with
        | error e => intro h; exact absurd h (by simp)
        | ok rest =>
          intro h
          injection h with h2
          rw [← h2] at hv
          rcases List.mem_cons.mp hv with hveq | hvrest
          · rw [hveq]
            exact hrel
          · have hwfl : wfList cs = true := by
              have := hwf
              simp only [wfNode, Bool.and_eq_true] at this
              exact this.2
            exact visitList_noTrail ex rel cs rest hwfl hrel hrest v hvrest

/-- On a well-formed sibling list, every visit record ends in the last
character of a well-formed entry name, never in a slash. -/
theorem visitList_noTrail (ex : List String) (pre : String) (cs : List FNode)
    (vs : List (String × Bool)) (hwf : wfList cs = true)
    (hpre : pre.data.getLast? ≠ some '/')
    (h : visitList ex pre cs = .ok vs) :
    ∀ v ∈ vs, v.1.data.getLast? ≠ some '/' := by
  cases cs with
  | nil =>
    intro v hv
    revert h
    unfold visitList
    intro h
    injection h with h2
    rw [← h2] at hv
    exact absurd hv (by simp)
  | cons c rest =>
    have hwfparts : wfNode c = true ∧ wfList rest = true := by
      have := hwf
      simp only [wfList, Bool.and_eq_true] at this
      exact ⟨this.1.1, this.2⟩
    have hname : goodName c.name = true := by
      have := hwfparts.1
      cases c with
      | file n => exact this
      | dir n cs2 =>
        simp only [wfNode, Bool.and_eq_true] at this
        exact this.1
    intro v hv
    revert h
    unfold visitList
    cases hc : visitNode ex (relJoin pre c.name) c with
    | error e => intro h; exact absurd h (by simp)
    | ok cvs =>
      cases hrest : visitList ex pre rest with
      | error e => intro h; exact absurd h (by simp)
      | ok rvs =>
        intro h
        injection h with h2
        rw [← h2] at hv
        have hjoin : (relJoin pre c.name).data.getLast? ≠ some '/' := by
          rw [relJoin_getLast (goodName_parts hname).1]
          exact goodName_last_ne_slash hname
        rcases List.mem_append.mp hv with hvc | hvr
        · exact visitNode_noTrail ex (relJoin pre c.name) c cvs hwfparts.1 hjoin hc v hvc
        · exact visitList_noTrail ex pre rest rvs hwfparts.2 hpre hrest v hvr

end

/-- C5 counterexample: for the tree holding a.txt and b/c.txt rooted at
/src, the archive receives the normalised relative entries a.txt, b/,
b/c.txt while stdout receives the walked paths /src/a.txt, /src/b,
/src/b/c.txt - not the archive entry paths the claim states. -/
theorem create_stdout_cex :
    (CreateRun ⟨false, true, true, true, false,
      .dir "src" [.file "a.txt", .dir "b" [.file "c.txt"]], "/src", []⟩).stdoutLines =
        ["/src/a.txt", "/src/b", "/src/b/c.txt"] ∧
    ((CreateRun ⟨false, true, true, true, false,
      .dir "src" [.file "a.txt", .dir "b" [.file "c.txt"]], "/src", []⟩).archive.map
        TarHeader.name) = ["a.txt", "b/", "b/c.txt"] ∧
    (CreateRun ⟨false, true, true, true, false,
      .dir "src" [.file "a.txt", .dir "b" [.file "c.txt"]], "/src", []⟩).stdoutLines ≠
      ((CreateRun ⟨false, true, true, true, false,
        .dir "src" [.file "a.txt", .dir "b" [.file "c.txt"]], "/src", []⟩).archive.map
          TarHeader.name) := by
  refine ⟨by decide, by decide, by decide⟩

/-- C5 (amended): for every completed Create run on a well-formed tree,
stdout carries one line per archive entry, in archive order, and each line
is the walked path: the root path joined with the archive entry name
stripped of its trailing slash - not the archive entry name itself. -/
theorem create_stdout_walked_paths (i : CreateIn)
    (hwf : wfNode i.root = true) (h : (CreateRun i).err = none) :
    (CreateRun i).stdoutLines =
      (CreateRun i).archive.map
        (fun hd => i.rootPath ++ "/" ++ dropOneTrailSlash hd.name) := by
  obtain ⟨pre, cok, gok, conc, cl, root, rp, ex⟩ := i
  simp only at hwf h
  cases cok with
  | false => exact absurd h (by simp [CreateRun])
  | true =>
    cases gok with
    | false => exact absurd h (by simp [CreateRun])
    | true =>
      cases conc with
      | false => exact absurd h (by simp [CreateRun])
      | true =>
        cases cl with
        | true => exact absurd h (by simp [CreateRun])
        | false =>
          cases root with
          | file n => simp [CreateRun]
          | dir n cs =>
            cases hvs : visitList ex "" cs with
            | error e => exact absurd h (by simp [CreateRun, hvs])
            | ok vs =>
              have hwfl : wfList cs = true := by
                simp only [wfNode, Bool.and_eq_true] at hwf
                exact hwf.2
              have hnt : ∀ v ∈ vs, v.1.data.getLast? ≠ some '/' :=
                visitList_noTrail ex "" cs vs hwfl (by simp) hvs
              have hrun : CreateRun ⟨pre, true, true, true, false, .dir n cs, rp, ex⟩ =
                  ⟨none, vs.map (fun v => writeDummyFile v.1 v.2),
                   vs.map (fun v => rp ++ "/" ++ v.1), true⟩ := by
                simp [CreateRun, hvs]
              rw [hrun]
              show vs.map (fun v => rp ++ "/" ++ v.1) =
                (vs.map (fun v => writeDummyFile v.1 v.2)).map
                  (fun hd => rp ++ "/" ++ dropOneTrailSlash hd.name)
              rw [List.map_map]
              apply List.map_congr_left
              intro v hv
              have hnotrail : strEndsWith v.1 "/" = false := by
                rw [← Bool.not_eq_true]
                intro hc
                exact hnt v hv ((strEndsWith_slash_iff v.1).mp hc)
              show rp ++ "/" ++ v.1 = rp ++ "/" ++ dropOneTrailSlash (writeDummyFile v.1 v.2).name
              cases hdirv : v.2 with
              | false =>
        have hn : (writeDummyFile v.1 false).name = v.1 := by
          simp [writeDummyFile, toSlash_eq_self]
        rw [hn, dropOneTrailSlash_of_no_slash v.1 (hnt v hv)]
              | true =>
        have hn : (writeDummyFile v.1 true).name = v.1 ++ "/" := by
          simp [writeDummyFile, toSlash_eq_self, hnotrail]
        rw [hn, dropOneTrailSlash_append]

/-- C5 witness: the amended stdout description on the two-file tree. -/
theorem create_stdout_walked_paths_witness :
    (CreateRun ⟨false, true, true, true, false,
      .dir "src" [.file "a.txt", .dir "b" [.file "c.txt"]], "/src", []⟩).stdoutLines =
      ((CreateRun ⟨false, true, true, true, false,
        .dir "src" [.file "a.txt", .dir "b" [.file "c.txt"]], "/src", []⟩).archive.map
          (fun hd => "/src" ++ "/" ++ dropOneTrailSlash hd.name)) := by
  have h := create_stdout_walked_paths
    ⟨false, true, true, true, false,
      .dir "src" [.file "a.txt", .dir "b" [.file "c.txt"]], "/src", []⟩
    (by decide) (by decide)
  exact h

/-- C8 witness: the loop evaluated on a concrete schedule holding a nil
error, then two non-nil errors: only the first non-nil error is delivered. -/
theorem mergeErrs_first_error_only_witness :
    (mergeErrsRun true true
      [(Src.ext, some none), (Src.sorter, some (some 7)), (Src.ext, some (some 9))]).1 = [7] ∧
    (mergeErrsRun true true
      [(Src.ext, some none), (Src.sorter, some (some 7)), (Src.ext, some (some 9))]).1.length ≤ 1 := by
  have h := mergeErrs_first_error_only (E := Nat)
    [(Src.ext, some none), (Src.sorter, some (some 7)), (Src.ext, some (some 9))]
  exact ⟨by decide, h.1⟩

/-! Rendered component paths: decomposition, uniqueness and shape. -/

theorem pathOf_nil : pathOf [] = "" := rfl

theorem relJoin_empty (n : String) : relJoin "" n = n := by
  unfold relJoin
  rw [if_pos rfl]

theorem pathOf_append_one (l : List String) (n : String) :
    pathOf (l ++ [n]) = relJoin (pathOf l) n := by
  unfold pathOf
  rw [List.foldl_append]
  rfl

theorem relJoin_data {s : String} (m : String) (hs : s ≠ "") :
    (relJoin s m).data = s.data ++ '/' :: m.data := by
  unfold relJoin
  rw [if_neg hs, String.data_append, String.data_append]
  simp

theorem relJoin_ne_empty {s : String} (m : String) (hs : s ≠ "") :
    relJoin s m ≠ "" := by
  intro hc
  have hd := congrArg String.data hc
  rw [relJoin_data m hs] at hd
  simp at hd

theorem foldl_relJoin_data (rest : List String) :
    ∀ s : String, s ≠ "" → (List.foldl relJoin s rest).data = s.data ++ tailChars rest := by
  induction rest with
  | nil => intro s _; simp [tailChars]
  | cons m r ih =>
    intro s hs
    rw [List.foldl_cons, ih (relJoin s m) (relJoin_ne_empty m hs), relJoin_data m hs]
    simp [tailChars]

theorem pathOf_cons_data (n : String) (rest : List String) (hn : n ≠ "") :
    (pathOf (n :: rest)).data = n.data ++ tailChars rest := by
  unfold pathOf
  rw [List.foldl_cons, relJoin_empty, foldl_relJoin_data rest n hn]

theorem tailChars_shape (l : List String) :
    tailChars l = [] ∨ ∃ u, tailChars l = '/' :: u := by
  cases l with
  | nil => exact Or.inl rfl
  | cons m r => exact Or.inr ⟨m.data ++ tailChars r, rfl⟩

theorem tailChars_getLast {rest : List String}
    (hg : ∀ m ∈ rest, goodName m = true) (hne : rest ≠ []) :
    (tailChars rest).getLast? ≠ some '/' := by
  induction rest with
  | nil => exact absurd rfl hne
  | cons m r ih =>
    show (('/' :: (m.data ++ tailChars r)) : List Char).getLast? ≠ some '/'
    have hm : goodName m = true := hg m (by simp)
    cases r with
    | nil =>
      show (('/' :: (m.data ++ [])) : List Char).getLast? ≠ some '/'
      rw [List.append_nil]
      have : (('/' :: m.data) : List Char) = ['/'] ++ m.data := rfl
      rw [this, getLast?_append_right (data_ne_nil_of_ne_empty (goodName_parts hm).1)]
      exact goodName_last_ne_slash hm
    | cons m2 r2 =>
      have htail : tailChars (m2 :: r2) ≠ [] := by simp [tailChars]
      have : (('/' :: (m.data ++ tailChars (m2 :: r2))) : List Char) =
          ('/' :: m.data) ++ tailChars (m2 :: r2) := by simp
      rw [this, getLast?_append_right htail]
      exact ih (fun x hx => hg x (by simp [hx])) (by simp)

theorem pathOf_getLast {comps : List String}
    (hg : ∀ n ∈ comps, goodName n = true) (hne : comps ≠ []) :
    (pathOf comps).data.getLast? ≠ some '/' := by
  cases comps with
  | nil => exact absurd rfl hne
  | cons n rest =>
    have hn : goodName n = true := hg n (by simp)
    rw [pathOf_cons_data n rest (goodName_parts hn).1]
    cases rest with
    | nil =>
      show ((n.data ++ tailChars []) : List Char).getLast? ≠ some '/'
      simp only [tailChars, List.append_nil]
      exact goodName_last_ne_slash hn
    | cons m r =>
      rw [getLast?_append_right (by simp [tailChars])]
      exact tailChars_getLast (fun x hx => hg x (by simp [hx])) (by simp)

theorem pathOf_data_ne_nil {comps : List String}
    (hg : ∀ n ∈ comps, goodName n = true) (hne : comps ≠ []) :
    (pathOf comps).data ≠ [] := by
  cases comps with
  | nil => exact absurd rfl hne
  | cons n rest =>
    have hn : goodName n = true := hg n (by simp)
    rw [pathOf_cons_data n rest (goodName_parts hn).1]
    simp [data_ne_nil_of_ne_empty (goodName_parts hn).1]

theorem pathOf_ne_empty {comps : List String}
    (hg : ∀ n ∈ comps, goodName n = true) (hne : comps ≠ []) :
    pathOf comps ≠ "" := by
  intro hc
  exact pathOf_data_ne_nil hg hne (by rw [hc])

theorem tailChars_length_cons (m : String) (r : List String) :
    (tailChars (m :: r)).length = 1 + m.data.length + (tailChars r).length := by
  simp [tailChars]
  omega

theorem pathOf_ne_dot {comps : List String}
    (hg : ∀ n ∈ comps, goodName n = true) (hne : comps ≠ []) :
    pathOf comps ≠ "." := by
  intro hc
  have hd := congrArg String.data hc
  cases comps with
  | nil => exact hne rfl
  | cons n rest =>
    have hn : goodName n = true := hg n (by simp)
    rw [pathOf_cons_data n rest (goodName_parts hn).1] at hd
    cases rest with
    | nil =>
      simp only [tailChars, List.append_nil] at hd
      exact (goodName_parts hn).2.1 (String.ext hd)
    | cons m r =>
      have hlen := congrArg List.length hd
      rw [List.length_append, tailChars_length_cons,
        show (("." : String).data) = ['.'] from rfl] at hlen
      have hnn := data_ne_nil_of_ne_empty (goodName_parts hn).1
      have : 0 < n.data.length := List.length_pos.mpr hnn
      have hq : n.length = n.data.length := rfl
      have hq2 : m.length = m.data.length := rfl
      simp at hlen
      omega

theorem pathOf_ne_dotslash {comps : List String}
    (hg : ∀ n ∈ comps, goodName n = true) (hne : comps ≠ []) :
    pathOf comps ≠ "./" := by
  intro hc
  have hd := congrArg String.data hc
  cases comps with
  | nil => exact hne rfl
  | cons n rest =>
    have hn : goodName n = true := hg n (by simp)
    rw [pathOf_cons_data n rest (goodName_parts hn).1] at hd
    cases rest with
    | nil =>
      simp only [tailChars, List.append_nil] at hd
      have : ('/' : Char) ∈ n.data := by
        rw [hd]
        simp [show ("./" : String).data = ['.', '/'] from rfl]
      exact (goodName_parts hn).2.2.2 this
    | cons m r =>
      have hm : goodName m = true := hg m (by simp)
      have hlen := congrArg List.length hd
      rw [List.length_append, tailChars_length_cons,
        show (("./" : String).data) = ['.', '/'] from rfl] at hlen
      have hn1 : 0 < n.data.length :=
        List.length_pos.mpr (data_ne_nil_of_ne_empty (goodName_parts hn).1)
      have hm1 : 0 < m.data.length :=
        List.length_pos.mpr (data_ne_nil_of_ne_empty (goodName_parts hm).1)
      have hq : n.length = n.data.length := rfl
      have hq2 : m.length = m.data.length := rfl
      simp at hlen
      omega

theorem token_split {x : List Char} :
    ∀ {y t1 t2 : List Char},
    ('/' : Char) ∉ x → ('/' : Char) ∉ y →
    (t1 = [] ∨ ∃ u, t1 = '/' :: u) → (t2 = [] ∨ ∃ u, t2 = '/' :: u) →
    x ++ t1 = y ++ t2 → x = y ∧ t1 = t2 := by
  induction x with
  | nil =>
    intro y t1 t2 _ hy ht1 _ heq
    cases y with
    | nil => simpa using heq
    | cons d y2 =>
      exfalso
      simp only [List.nil_append, List.cons_append] at heq
      rcases ht1 with h | ⟨u, h⟩
      · rw [h] at heq
        exact absurd heq (by simp)
      · rw [h] at heq
        have hd : d = '/' := by
          have := congrArg List.head? heq
          simpa using this.symm
        exact hy (by simp [hd])
  | cons c x2 ihx =>
    intro y t1 t2 hx hy ht1 ht2 heq
    cases y with
    | nil =>
      exfalso
      simp only [List.cons_append, List.nil_append] at heq
      rcases ht2 with h | ⟨u, h⟩
      · rw [h] at heq
        exact absurd heq.symm (by simp)
      · rw [h] at heq
        have hc : c = '/' := by
          have := congrArg List.head? heq
          simpa using this
        exact hx (by simp [hc])
    | cons d y2 =>
      simp only [List.cons_append, List.cons.injEq] at heq
      obtain ⟨hcd, htl⟩ := heq
      have hx2 : ('/' : Char) ∉ x2 := fun h => hx (by simp [h])
      have hy2 : ('/' : Char) ∉ y2 := fun h => hy (by simp [h])
      obtain ⟨h1, h2⟩ := ihx hx2 hy2 ht1 ht2 htl
      exact ⟨by rw [hcd, h1], h2⟩

theorem tailChars_inj {ra : List String} :
    ∀ {rb : List String},
    (∀ m ∈ ra, goodName m = true) → (∀ m ∈ rb, goodName m = true) →
    tailChars ra = tailChars rb → ra = rb := by
  induction ra with
  | nil =>
    intro rb _ _ heq
    cases rb with
    | nil => rfl
    | cons m2 r2 => exact absurd heq.symm (by simp [tailChars])
  | cons m r ih =>
    intro rb hga hgb heq
    cases rb with
    | nil => exact absurd heq (by simp [tailChars])
    | cons m2 r2 =>
      simp only [tailChars, List.cons.injEq, true_and] at heq
      have hm : goodName m = true := hga m (by simp)
      have hm2 : goodName m2 = true := hgb m2 (by simp)
      obtain ⟨h1, h2⟩ := token_split (goodName_parts hm).2.2.2 (goodName_parts hm2).2.2.2
        (tailChars_shape r) (tailChars_shape r2) heq
      have hr := ih (fun x hx => hga x (by simp [hx])) (fun x hx => hgb x (by simp [hx])) h2
      rw [String.ext h1, hr]

theorem pathOf_inj {a b : List String}
    (hga : ∀ n ∈ a, goodName n = true) (hgb : ∀ n ∈ b, goodName n = true)
    (ha : a ≠ []) (hb : b ≠ []) (heq : pathOf a = pathOf b) : a = b := by
  cases a with
  | nil => exact absurd rfl ha
  | cons n ra =>
    cases b with
    | nil => exact absurd rfl hb
    | cons n2 rb =>
      have hn : goodName n = true := hga n (by simp)
      have hn2 : goodName n2 = true := hgb n2 (by simp)
      have hd := congrArg String.data heq
      rw [pathOf_cons_data n ra (goodName_parts hn).1,
        pathOf_cons_data n2 rb (goodName_parts hn2).1] at hd
      obtain ⟨h1, h2⟩ := token_split (goodName_parts hn).2.2.2 (goodName_parts hn2).2.2.2
        (tailChars_shape ra) (tailChars_shape rb) hd
      have hr := tailChars_inj (fun x hx => hga x (by simp [hx]))
        (fun x hx => hgb x (by simp [hx])) h2
      rw [String.ext h1, hr]

theorem renderRec_inj {a b : List String} {da db : Bool}
    (hga : ∀ n ∈ a, goodName n = true) (hgb : ∀ n ∈ b, goodName n = true)
    (ha : a ≠ []) (hb : b ≠ []) (heq : renderRec a da = renderRec b db) :
    a = b ∧ da = db := by
  cases da with
  | true =>
    cases db with
    | true =>
      have hd := congrArg String.data heq
      simp only [renderRec, if_pos, String.data_append] at hd
      have h1 := (List.append_inj' hd rfl).1
      exact ⟨pathOf_inj hga hgb ha hb (String.ext h1), rfl⟩
    | false =>
      exfalso
      have hd := congrArg (fun s => s.data.getLast?) heq
      simp only [renderRec, if_pos, String.data_append] at hd
      rw [List.getLast?_concat] at hd
      exact pathOf_getLast hgb hb hd.symm
  | false =>
    cases db with
    | true =>
      exfalso
      have hd := congrArg (fun s => s.data.getLast?) heq
      simp only [renderRec, if_pos, String.data_append] at hd
      rw [List.getLast?_concat] at hd
      exact pathOf_getLast hga ha hd
    | false =>
      simp only [renderRec, if_neg] at heq
      exact ⟨pathOf_inj hga hgb ha hb heq, rfl⟩

theorem childNamed_mem {n : String} {cs : List FNode} {c : FNode}
    (h : childNamed n cs = some c) : c ∈ cs ∧ c.name = n := by
  induction cs with
  | nil => exact absurd h (by simp [childNamed])
  | cons e es ih =>
    revert h
    unfold childNamed
    by_cases he : e.name = n
    · rw [if_pos he]
      intro h
      injection h with h2
      exact ⟨by simp [← h2], by rw [← h2, he]⟩
    · rw [if_neg he]
      intro h
      obtain ⟨h1, h2⟩ := ih h
      exact ⟨by simp [h1], h2⟩

theorem wfList_parts {e : FNode} {es : List FNode} (h : wfList (e :: es) = true) :
    wfNode e = true ∧ (∀ x ∈ es, x.name ≠ e.name) ∧ wfList es = true := by
  have h2 := h
  unfold wfList at h2
  rw [Bool.and_eq_true, Bool.and_eq_true] at h2
  refine ⟨h2.1.1, ?_, h2.2⟩
  intro x hx
  have := List.all_eq_true.mp h2.1.2 x hx
  simpa using this

theorem wfNode_dir_parts {n : String} {cs : List FNode}
    (h : wfNode (.dir n cs) = true) : goodName n = true ∧ wfList cs = true := by
  have h2 := h
  unfold wfNode at h2
  rw [Bool.and_eq_true] at h2
  exact h2

theorem wfNode_name_good {e : FNode} (h : wfNode e = true) : goodName e.name = true := by
  cases e with
  | file n => exact h
  | dir n cs => exact (wfNode_dir_parts h).1

theorem wfList_mem {cs : List FNode} {c : FNode}
    (h : wfList cs = true) (hc : c ∈ cs) : wfNode c = true := by
  induction cs with
  | nil => exact absurd hc (by simp)
  | cons e es ih =>
    obtain ⟨h1, _, h3⟩ := wfList_parts h
    rcases List.mem_cons.mp hc with rfl | hin
    · exact h1
    · exact ih h3 hin

theorem childNamed_of_mem {cs : List FNode} {c : FNode}
    (hwf : wfList cs = true) (hc : c ∈ cs) : childNamed c.name cs = some c := by
  induction cs with
  | nil => exact absurd hc (by simp)
  | cons e es ih =>
    obtain ⟨_, hdist, h3⟩ := wfList_parts hwf
    rcases List.mem_cons.mp hc with rfl | hin
    · unfold childNamed
      rw [if_pos rfl]
    · unfold childNamed
      rw [if_neg (fun hh => hdist c hin hh.symm)]
      exact ih h3 hin

theorem nodeAt_livesAt {e : FNode} {comps : List String} {e2 : FNode}
    (h : nodeAt e comps = some e2) : LivesAt e comps e2 := by
  induction comps generalizing e with
  | nil =>
    have h2 : e = e2 := by simpa [nodeAt] using h
    rw [← h2]
    exact .refl e
  | cons n rest ih =>
    cases e with
    | file m => exact absurd h (by simp [nodeAt])
    | dir m cs =>
      revert h
      unfold nodeAt
      cases hcn : childNamed n cs with
      | none => intro h; exact absurd h (by simp)
      | some c =>
        intro h
        obtain ⟨hmem, hname⟩ := childNamed_mem hcn
        have hstep : LivesAt (.dir m cs) (c.name :: rest) e2 :=
          LivesAt.step hmem (ih (by simpa using h))
        rwa [hname] at hstep

theorem livesAt_nodeAt {e : FNode} {comps : List String} {e2 : FNode}
    (hl : LivesAt e comps e2) (hwf : wfNode e = true) : nodeAt e comps = some e2 := by
  induction hl with
  | refl e => simp [nodeAt]
  | step hmem hrest ih =>
    rename_i n cs c e3 rest
    show nodeAt (.dir n cs) (c.name :: rest) = some e3
    unfold nodeAt
    rw [childNamed_of_mem (wfNode_dir_parts hwf).2 hmem]
    exact ih (wfList_mem (wfNode_dir_parts hwf).2 hmem)

theorem livesAt_good {e : FNode} {comps : List String} {e2 : FNode}
    (hl : LivesAt e comps e2) (hwf : wfNode e = true) :
    (∀ n ∈ comps, goodName n = true) ∧ wfNode e2 = true := by
  induction hl with
  | refl e => exact ⟨by simp, hwf⟩
  | step hmem hrest ih =>
    rename_i n cs c e3 rest
    have hwfc : wfNode c = true := wfList_mem (wfNode_dir_parts hwf).2 hmem
    obtain ⟨ih1, ih2⟩ := ih hwfc
    refine ⟨?_, ih2⟩
    intro x hx
    rcases List.mem_cons.mp hx with rfl | hin
    · exact wfNode_name_good hwfc
    · exact ih1 x hin

theorem visitList_nil_inv {ex : List String} {pre : String} {vs : List (String × Bool)}
    (h : visitList ex pre [] = .ok vs) : vs = [] := by
  have h2 := h
  simp only [visitList] at h2
  injection h2 with h3
  exact h3.symm

theorem visitList_cons_inv {ex : List String} {pre : String} {e : FNode} {es : List FNode}
    {vs : List (String × Bool)} (h : visitList ex pre (e :: es) = .ok vs) :
    ∃ evs rvs, visitNode ex (relJoin pre e.name) e = .ok evs ∧
      visitList ex pre es = .ok rvs ∧ vs = evs ++ rvs := by
  have h2 := h
  simp only [visitList] at h2
  cases h1 : visitNode ex (relJoin pre e.name) e with
  | error err =>
    rw [h1] at h2
    exact absurd h2 (by simp)
  | ok evs =>
    rw [h1] at h2
    cases h3 : visitList ex pre es with
    | error err =>
      rw [h3] at h2
      exact absurd h2 (by simp)
    | ok rvs =>
      rw [h3] at h2
      injection h2 with h4
      exact ⟨evs, rvs, rfl, rfl, h4.symm⟩

theorem visitNode_file_inv {ex : List String} {rel : String} {n : String}
    {vs : List (String × Bool)} (h : visitNode ex rel (.file n) = .ok vs) :
    (isExcluded rel false ex = .ok true ∧ vs = []) ∨
    (isExcluded rel false ex = .ok false ∧ vs = [(rel, false)]) := by
  revert h
  unfold visitNode
  cases hx : isExcluded rel false ex with
  | error e => intro h; exact absurd h (by simp)
  | ok b =>
    cases b with
    | true =>
      intro h
      injection h with h2
      exact Or.inl ⟨rfl, h2.symm⟩
    | false =>
      intro h
      injection h with h2
      exact Or.inr ⟨rfl, h2.symm⟩

theorem visitNode_dir_inv {ex : List String} {rel : String} {n : String} {cs : List FNode}
    {vs : List (String × Bool)} (h : visitNode ex rel (.dir n cs) = .ok vs) :
    (isExcluded rel true ex = .ok true ∧ vs = []) ∨
    (isExcluded rel true ex = .ok false ∧
      ∃ rest, visitList ex rel cs = .ok rest ∧ vs = (rel, true) :: rest) := by
  revert h
  unfold visitNode
  cases hx : isExcluded rel true ex with
  | error e => intro h; exact absurd h (by simp)
  | ok b =>
    cases b with
    | true =>
      intro h
      injection h with h2
      exact Or.inl ⟨rfl, h2.symm⟩
    | false =>
      cases hr : visitList ex rel cs with
      | error e => intro h; exact absurd h (by simp)
      | ok rest =>
        intro h
        injection h with h2
        exact Or.inr ⟨rfl, rest, rfl, h2.symm⟩

theorem visitList_get {ex : List String} {pre : String} {cs : List FNode}
    {lvs : List (String × Bool)} (h : visitList ex pre cs = .ok lvs)
    {c : FNode} (hc : c ∈ cs) :
    ∃ cvs, visitNode ex (relJoin pre c.name) c = .ok cvs ∧ ∀ x ∈ cvs, x ∈ lvs := by
  induction cs generalizing lvs with
  | nil => exact absurd hc (by simp)
  | cons e es ih =>
    obtain ⟨evs, rvs, h1, h2, h3⟩ := visitList_cons_inv h
    rcases List.mem_cons.mp hc with rfl | hin
    · exact ⟨evs, h1, fun x hx => by rw [h3]; exact List.mem_append_left _ hx⟩
    · obtain ⟨cvs, h4, h5⟩ := ih h2 hin
      exact ⟨cvs, h4, fun x hx => by rw [h3]; exact List.mem_append_right _ (h5 x hx)⟩

mutual

/-- Soundness of one node's visit sequence: every emitted pair belongs to a
real entry below the node; no ancestor on the way was an excluded directory
and the entry itself is not excluded. -/
theorem visitNode_sound (ex : List String) (comps : List String) (e : FNode)
    (vs : List (String × Bool)) (h : visitNode ex (pathOf comps) e = .ok vs) :
    ∀ v ∈ vs, ∃ scomps e2, v.1 = pathOf (comps ++ scomps) ∧ LivesAt e scomps e2 ∧
      v.2 = e2.isDir ∧
      (∀ k, k < scomps.length →
        isExcluded (pathOf (comps ++ scomps.take k)) true ex = .ok false) ∧
      isExcluded (pathOf (comps ++ scomps)) e2.isDir ex = .ok false := by
  cases e with
  | file n =>
    intro v hv
    rcases visitNode_file_inv h with ⟨hx, hvs⟩ | ⟨hx, hvs⟩
    · rw [hvs] at hv
      exact absurd hv (by simp)
    · rw [hvs] at hv
      have hveq := List.mem_singleton.mp hv
      refine ⟨[], .file n, ?_, .refl _, ?_, ?_, ?_⟩
      · rw [hveq, List.append_nil]
      · rw [hveq]
        rfl
      · intro k hk
        exact absurd hk (by simp)
      · rw [List.append_nil]
        exact hx
  | dir n cs =>
    intro v hv
    rcases visitNode_dir_inv h with ⟨hx, hvs⟩ | ⟨hx, rest, hrest, hvs⟩
    · rw [hvs] at hv
      exact absurd hv (by simp)
    · rw [hvs] at hv
      rcases List.mem_cons.mp hv with hveq | hvin
      · refine ⟨[], .dir n cs, ?_, .refl _, ?_, ?_, ?_⟩
        · rw [hveq, List.append_nil]
        · rw [hveq]
          rfl
        · intro k hk
          exact absurd hk (by simp)
        · rw [List.append_nil]
          exact hx
      · obtain ⟨c, hcmem, scomps, e2, hv1, hl, hv2, hanc, hself⟩ :=
          visitList_sound ex comps cs rest hrest v hvin
        refine ⟨c.name :: scomps, e2, ?_, .step hcmem hl, hv2, ?_, ?_⟩
        · rw [List.append_cons]
          exact hv1
        · intro k hk
          cases k with
          | zero =>
            simp only [List.take_zero, List.append_nil]
            exact hx
          | succ k2 =>
            have hk2 : k2 < scomps.length := by simpa using hk
            have hstep := hanc k2 hk2
            have halg : comps ++ (c.name :: scomps).take (k2 + 1) =
                (comps ++ [c.name]) ++ scomps.take k2 := by
              rw [List.take_succ_cons, List.append_cons]
            rw [halg]
            exact hstep
        · rw [List.append_cons]
          exact hself

/-- Soundness of a sibling list's visit sequence, relative to the parent's
component path. -/
theorem visitList_sound (ex : List String) (comps : List String) (cs : List FNode)
    (vs : List (String × Bool)) (h : visitList ex (pathOf comps) cs = .ok vs) :
    ∀ v ∈ vs, ∃ c ∈ cs, ∃ scomps e2,
      v.1 = pathOf ((comps ++ [c.name]) ++ scomps) ∧ LivesAt c scomps e2 ∧
      v.2 = e2.isDir ∧
      (∀ k, k < scomps.length →
        isExcluded (pathOf ((comps ++ [c.name]) ++ scomps.take k)) true ex = .ok false) ∧
      isExcluded (pathOf ((comps ++ [c.name]) ++ scomps)) e2.isDir ex = .ok false := by
  cases cs with
  | nil =>
    intro v hv
    rw [visitList_nil_inv h] at hv
    exact absurd hv (by simp)
  | cons e es =>
    intro v hv
    obtain ⟨evs, rvs, h1, h2, h3⟩ := visitList_cons_inv h
    rw [h3] at hv
    rcases List.mem_append.mp hv with hvc | hvr
    · have h1b : visitNode ex (pathOf (comps ++ [e.name])) e = .ok evs := by
        rwa [pathOf_append_one]
      obtain ⟨scomps, e2, ha, hb, hc2, hd, he⟩ :=
        visitNode_sound ex (comps ++ [e.name]) e evs h1b v hvc
      exact ⟨e, by simp, scomps, e2, ha, hb, hc2, hd, he⟩
    · obtain ⟨c, hcmem, scomps, e2, ha, hb, hc2, hd, he⟩ :=
        visitList_sound ex comps es rvs h2 v hvr
      exact ⟨c, by simp [hcmem], scomps, e2, ha, hb, hc2, hd, he⟩

end

/-- Completeness of the visit sequence: an entry below the node whose
ancestors are not excluded directories and which is itself not excluded is
emitted. -/
theorem visit_complete (ex : List String) {e : FNode} {scomps : List String} {e2 : FNode}
    (hl : LivesAt e scomps e2) :
    ∀ comps vs, visitNode ex (pathOf comps) e = .ok vs →
    (∀ k, k < scomps.length →
      isExcluded (pathOf (comps ++ scomps.take k)) true ex = .ok false) →
    isExcluded (pathOf (comps ++ scomps)) e2.isDir ex = .ok false →
    (pathOf (comps ++ scomps), e2.isDir) ∈ vs := by
  induction hl with
  | refl e =>
    intro comps vs h _ hself
    rw [List.append_nil] at hself
    rw [List.append_nil]
    cases e with
    | file n =>
      rcases visitNode_file_inv h with ⟨hx, _⟩ | ⟨_, hvs⟩
      · exfalso
        rw [show (FNode.file n).isDir = false from rfl] at hself
        rw [hself] at hx
        simp at hx
      · rw [hvs, show (FNode.file n).isDir = false from rfl]
        simp
    | dir n cs =>
      rcases visitNode_dir_inv h with ⟨hx, _⟩ | ⟨_, rest, _, hvs⟩
      · exfalso
        rw [show (FNode.dir n cs).isDir = true from rfl] at hself
        rw [hself] at hx
        simp at hx
      · rw [hvs, show (FNode.dir n cs).isDir = true from rfl]
        simp
  | step hmem hrest ih =>
    rename_i n cs c e3 rest
    intro comps vs h hanc hself
    rcases visitNode_dir_inv h with ⟨hx, _⟩ | ⟨hok, lvs, hlvs, hvs⟩
    · exfalso
      have h0 := hanc 0 (by simp)
      simp only [List.take_zero, List.append_nil] at h0
      rw [h0] at hx
      simp at hx
    · obtain ⟨cvs, hcv, hsub⟩ := visitList_get hlvs hmem
      have hcv2 : visitNode ex (pathOf (comps ++ [c.name])) c = .ok cvs := by
        rwa [pathOf_append_one]
      have hanc2 : ∀ k, k < rest.length →
          isExcluded (pathOf ((comps ++ [c.name]) ++ rest.take k)) true ex = .ok false := by
        intro k hk
        have hstep := hanc (k + 1) (by simp; omega)
        have halg : comps ++ (c.name :: rest).take (k + 1) =
            (comps ++ [c.name]) ++ rest.take k := by
          rw [List.take_succ_cons, List.append_cons]
        rw [halg] at hstep
        exact hstep
      have hself2 : isExcluded (pathOf ((comps ++ [c.name]) ++ rest)) e3.isDir ex =
          .ok false := by
        rw [← List.append_cons]
        exact hself
      have hin := ih (comps ++ [c.name]) cvs hcv2 hanc2 hself2
      rw [hvs]
      apply List.mem_cons_of_mem
      have hmem2 := hsub _ hin
      have halg2 : comps ++ c.name :: rest = (comps ++ [c.name]) ++ rest :=
        List.append_cons comps c.name rest
      rw [halg2]
      exact hmem2

theorem fsRecordsRaw_dir_inv {rname : String} {cs : List FNode} {ex : List String}
    {res : List String} (h : fsRecordsRaw (.dir rname cs) ex = .ok res) :
    ∃ vs, visitList ex "" cs = .ok vs ∧
      res = vs.map (fun v => if v.2 then toSlash v.1 ++ "/" else toSlash v.1) := by
  have h2 := h
  simp only [fsRecordsRaw] at h2
  cases hv : visitList ex "" cs with
  | error e =>
    rw [hv] at h2
    simp [Except.map] at h2
  | ok vs =>
    rw [hv] at h2
    simp only [Except.map] at h2
    injection h2 with h3
    exact ⟨vs, rfl, h3.symm⟩

/-- Soundness of the raw filesystem record stream: every record is a real
non-excluded entry of the tree with no excluded directory above it, rendered
with the trailing slash exactly for directories. -/
theorem fs_sound {rname : String} {cs : List FNode} {ex : List String} {res : List String}
    (hwf : wfNode (.dir rname cs) = true) (hres : fsRecordsRaw (.dir rname cs) ex = .ok res) :
    ∀ r ∈ res, ∃ comps e2, comps ≠ [] ∧ (∀ n ∈ comps, goodName n = true) ∧
      LivesAt (.dir rname cs) comps e2 ∧ wfNode e2 = true ∧
      r = renderRec comps e2.isDir ∧
      (∀ k, 0 < k → k < comps.length →
        isExcluded (pathOf (comps.take k)) true ex = .ok false) ∧
      isExcluded (pathOf comps) e2.isDir ex = .ok false := by
  intro r hr
  obtain ⟨vs, hvs, hmap⟩ := fsRecordsRaw_dir_inv hres
  rw [hmap] at hr
  obtain ⟨v, hv, hrend⟩ := List.mem_map.mp hr
  have hvs2 : visitList ex (pathOf []) cs = .ok vs := hvs
  obtain ⟨c, hcmem, scomps, e2, h1, h2, h3, h4, h5⟩ := visitList_sound ex [] cs vs hvs2 v hv
  have hliv : LivesAt (.dir rname cs) (c.name :: scomps) e2 := .step hcmem h2
  have hgood := livesAt_good hliv hwf
  have halg : ∀ t : List String, ([] ++ [c.name]) ++ t = c.name :: t := by
    intro t
    simp
  refine ⟨c.name :: scomps, e2, by simp, hgood.1, hliv, hgood.2, ?_, ?_, ?_⟩
  · rw [← hrend, h1, toSlash_eq_self, halg scomps]
    rw [h3]
    cases e2.isDir with
    | true => simp [renderRec]
    | false => simp [renderRec]
  · intro k hk0 hklen
    cases k with
    | zero => omega
    | succ k2 =>
      have hk2 : k2 < scomps.length := by
        simp at hklen
        omega
      have hstep := h4 k2 hk2
      rw [halg (scomps.take k2)] at hstep
      have halg2 : (c.name :: scomps).take (k2 + 1) = c.name :: scomps.take k2 :=
        List.take_succ_cons
      rw [halg2]
      exact hstep
  · rw [halg scomps] at h5
    exact h5

/-- Completeness of the raw filesystem record stream: every entry of the
tree that is not excluded and has no excluded directory above it is
emitted. -/
theorem fs_complete {rname : String} {cs : List FNode} {ex : List String} {res : List String}
    (hres : fsRecordsRaw (.dir rname cs) ex = .ok res) :
    ∀ comps e2, nodeAt (.dir rname cs) comps = some e2 → comps ≠ [] →
    (∀ k, 0 < k → k < comps.length →
      isExcluded (pathOf (comps.take k)) true ex = .ok false) →
    isExcluded (pathOf comps) e2.isDir ex = .ok false →
    renderRec comps e2.isDir ∈ res := by
  intro comps e2 hnode hne hanc hself
  obtain ⟨vs, hvs, hmap⟩ := fsRecordsRaw_dir_inv hres
  have hliv := nodeAt_livesAt hnode
  cases hliv with
  | refl => exact absurd rfl hne
  | step hmem hrest =>
    rename_i c rest
    obtain ⟨cvs, hcv, hsub⟩ := visitList_get hvs hmem
    have hcv2 : visitNode ex (pathOf [c.name]) c = .ok cvs := hcv
    have hanc2 : ∀ k, k < rest.length →
        isExcluded (pathOf ([c.name] ++ rest.take k)) true ex = .ok false := by
      intro k hk
      have hstep := hanc (k + 1) (by omega) (by simp; omega)
      have halg : (c.name :: rest).take (k + 1) = [c.name] ++ rest.take k := by
        rw [List.take_succ_cons]
        rfl
      rw [halg] at hstep
      exact hstep
    have hself2 : isExcluded (pathOf ([c.name] ++ rest)) e2.isDir ex = .ok false := hself
    have hin := visit_complete ex hrest [c.name] cvs hcv2 hanc2 hself2
    have hmem2 := hsub _ hin
    rw [hmap]
    apply List.mem_map.mpr
    refine ⟨(pathOf ([c.name] ++ rest), e2.isDir), hmem2, ?_⟩
    rw [toSlash_eq_self]
    show (if e2.isDir then pathOf ([c.name] ++ rest) ++ "/" else pathOf ([c.name] ++ rest)) =
      renderRec (c.name :: rest) e2.isDir
    rfl

theorem renderRec_not_root {comps : List String} {d : Bool}
    (hg : ∀ n ∈ comps, goodName n = true) (hne : comps ≠ []) :
    renderRec comps d ≠ "." ∧ renderRec comps d ≠ "./" ∧ renderRec comps d ≠ "" := by
  cases d with
  | false =>
    simp only [renderRec, Bool.false_eq_true, if_false]
    exact ⟨pathOf_ne_dot hg hne, pathOf_ne_dotslash hg hne, pathOf_ne_empty hg hne⟩
  | true =>
    simp only [renderRec, if_pos]
    refine ⟨?_, ?_, ?_⟩
    · intro hc
      have hd := congrArg (fun s => s.data.getLast?) hc
      simp only [String.data_append, List.getLast?_concat] at hd
      simp [show ("." : String).data = ['.'] from rfl] at hd
    · intro hc
      have hd := congrArg String.data hc
      simp only [String.data_append] at hd
      have hd2 : (pathOf comps).data ++ ['/'] = ['.'] ++ ['/'] := by simpa using hd
      have h1 : (pathOf comps).data = ['.'] := (List.append_inj' hd2 rfl).1
      exact pathOf_ne_dot hg hne (String.ext h1)
    · intro hc
      have hd := congrArg String.data hc
      simp only [String.data_append] at hd
      simp at hd

/-- C9: on every well-formed tree and completed walk, the filesystem stream
never emits a record for the root itself (no dot, dot-slash or empty
record); every emitted record is a real, non-excluded entry of the tree,
carrying a trailing slash exactly when it is a directory; an excluded entry
is never emitted; when an excluded entry is a directory its entire subtree
is pruned (no record of it or below it is emitted); and when an excluded
entry is a file only that file is skipped: every entry that is not excluded
and sits below no excluded directory is emitted. -/
theorem fs_walk_stream_props (rname : String) (cs : List FNode) (ex : List String)
    (res : List String) (hwf : wfNode (.dir rname cs) = true)
    (hres : fsRecordsRaw (.dir rname cs) ex = .ok res) :
    ("." ∉ res ∧ "./" ∉ res ∧ "" ∉ res) ∧
    (∀ r ∈ res, ∃ comps e2, comps ≠ [] ∧ nodeAt (.dir rname cs) comps = some e2 ∧
      r = renderRec comps e2.isDir ∧
      isExcluded (pathOf comps) e2.isDir ex = .ok false ∧
      (e2.isDir = true → strEndsWith r "/" = true) ∧
      (e2.isDir = false → strEndsWith r "/" = false)) ∧
    (∀ comps e2, nodeAt (.dir rname cs) comps = some e2 → comps ≠ [] →
      isExcluded (pathOf comps) e2.isDir ex = .ok true →
      renderRec comps e2.isDir ∉ res) ∧
    (∀ dcomps dn dcs, nodeAt (.dir rname cs) dcomps = some (.dir dn dcs) → dcomps ≠ [] →
      isExcluded (pathOf dcomps) true ex = .ok true →
      ∀ comps2 e2, nodeAt (.dir rname cs) comps2 = some e2 →
        List.IsPrefix dcomps comps2 → renderRec comps2 e2.isDir ∉ res) ∧
    (∀ comps e2, nodeAt (.dir rname cs) comps = some e2 → comps ≠ [] →
      (∀ k, 0 < k → k < comps.length →
        isExcluded (pathOf (comps.take k)) true ex = .ok false) →
      isExcluded (pathOf comps) e2.isDir ex = .ok false →
      renderRec comps e2.isDir ∈ res) := by
  refine ⟨?_, ?_, ?_, ?_, ?_⟩
  · refine ⟨?_, ?_, ?_⟩ <;> intro hmem <;>
      obtain ⟨comps, e2, hne, hg, _, _, hrend, _, _⟩ := fs_sound hwf hres _ hmem
    · exact (renderRec_not_root hg hne).1 hrend.symm
    · exact (renderRec_not_root hg hne).2.1 hrend.symm
    · exact (renderRec_not_root hg hne).2.2 hrend.symm
  · intro r hr
    obtain ⟨comps, e2, hne, hg, hliv, _, hrend, _, hself⟩ := fs_sound hwf hres r hr
    refine ⟨comps, e2, hne, livesAt_nodeAt hliv hwf, hrend, hself, ?_, ?_⟩
    · intro hd
      rw [hrend]
      simp only [renderRec, hd, if_pos]
      exact strEndsWith_append_slash _
    · intro hd
      rw [hrend]
      simp only [renderRec, hd, Bool.false_eq_true, if_false]
      rw [← Bool.not_eq_true]
      intro hc
      exact pathOf_getLast hg hne ((strEndsWith_slash_iff _).mp hc)
  · intro comps e2 hnode hne hexcl hmem
    obtain ⟨comps2, e22, hne2, hg2, hliv2, _, hrend2, _, hself2⟩ := fs_sound hwf hres _ hmem
    have hg1 := (livesAt_good (nodeAt_livesAt hnode) hwf).1
    obtain ⟨hceq, hdeq⟩ := renderRec_inj hg1 hg2 hne hne2 hrend2
    have hnode2 := livesAt_nodeAt hliv2 hwf
    rw [← hceq] at hnode2
    rw [hnode] at hnode2
    injection hnode2 with he
    rw [← hceq, ← he] at hself2
    rw [hexcl] at hself2
    simp at hself2
  · intro dcomps dn dcs hdnode hdne hdexcl comps2 e2 hnode2 hpre hmem
    obtain ⟨comps3, e23, hne3, hg3, hliv3, _, hrend3, hanc3, hself3⟩ :=
      fs_sound hwf hres _ hmem
    have hne2 : comps2 ≠ [] := by
      intro hc
      rw [hc] at hpre
      exact hdne (List.prefix_nil.mp hpre)
    have hg2 := (livesAt_good (nodeAt_livesAt hnode2) hwf).1
    obtain ⟨hleft, hdright⟩ := renderRec_inj hg2 hg3 hne2 hne3 hrend3
    have hnode3 := livesAt_nodeAt hliv3 hwf
    rw [← hleft] at hnode3
    rw [hnode2] at hnode3
    injection hnode3 with he
    have htake := List.prefix_iff_eq_take.mp hpre
    have hlen := hpre.length_le
    have hjpos : 0 < dcomps.length := List.length_pos.mpr hdne
    by_cases hcase : dcomps.length = comps2.length
    · have hdc : dcomps = comps2 := by
        rw [htake, hcase, List.take_length]
      rw [hdc, hnode2] at hdnode
      injection hdnode with he2
      have hdir : e2.isDir = true := by
        rw [he2]
        rfl
      rw [← hleft, ← he, hdir] at hself3
      rw [← hdc] at hself3
      rw [hdexcl] at hself3
      simp at hself3
    · have hlt : dcomps.length < comps2.length := by omega
      have hstep := hanc3 dcomps.length hjpos (by rw [← hleft]; exact hlt)
      rw [← hleft, ← htake] at hstep
      rw [hdexcl] at hstep
      simp at hstep
  · exact fs_complete hres

/-- C9 witness: the walk-stream properties applied to a concrete two-entry
tree with no excludes; the nested file is emitted as b/c. -/
theorem fs_walk_stream_props_witness :
    ("." ∉ (["a", "b/", "b/c"] : List String)) ∧
    renderRec ["b", "c"] (FNode.file "c").isDir ∈ (["a", "b/", "b/c"] : List String) := by
  have h := fs_walk_stream_props "r" [.file "a", .dir "b" [.file "c"]] [] ["a", "b/", "b/c"]
    (by decide) (by decide)
  refine ⟨h.1.1, ?_⟩
  refine h.2.2.2.2 ["b", "c"] (.file "c") ?_ (by simp) ?_ (by decide)
  · simp [nodeAt, childNamed, FNode.name]
  · intro k hk0 hklen
    have hk1 : k = 1 := by
      simp at hklen
      omega
    subst hk1
    decide

end Treeball
